import Mathlib

/-!
Verification of the event-and-booking model layer: slug derivation,
time normalization, the Event and Booking pre-save hooks, email
validation, and the cached database-connection state machine.
Strings are modelled as their character lists; the JavaScript string
operations (trim, toLowerCase over ASCII, the specific regexes used by
the code) are embedded as executable functions on `List Char`.
-/

/-- Whitespace for the JavaScript trim and the regex class \s, modelled
over the ASCII whitespace characters. -/
def isWsJs (c : Char) : Bool :=
  decide (c.toNat = 32 ∨ c.toNat = 9 ∨ c.toNat = 10 ∨ c.toNat = 13 ∨ c.toNat = 11 ∨ c.toNat = 12)

/-- JavaScript String.prototype.trim on a character list. -/
def trimList (l : List Char) : List Char :=
  ((l.dropWhile isWsJs).reverse.dropWhile isWsJs).reverse

/-- JavaScript trim on strings. -/
def trimStr (s : String) : String :=
  String.mk (trimList s.toList)

/-- Characters of the regex class [a-z0-9]. -/
def isSlugChar (c : Char) : Bool :=
  decide ((97 ≤ c.toNat ∧ c.toNat ≤ 122) ∨ (48 ≤ c.toNat ∧ c.toNat ≤ 57))

/-- The regex replace of [^a-z0-9]+ by "-": every maximal run of
characters outside [a-z0-9] becomes a single hyphen. -/
def collapseRuns : List Char → List Char
  | [] => []
  | [c] => if isSlugChar c then [c] else ['-']
  | c :: d :: rest =>
    if isSlugChar c then c :: collapseRuns (d :: rest)
    else if isSlugChar d then '-' :: collapseRuns (d :: rest)
    else collapseRuns (d :: rest)

/-- The regex replace of (^-|-$)+ by "": it removes one leading hyphen,
if present, and one trailing hyphen, if present. -/
def stripLead : List Char → List Char
  | [] => []
  | c :: rest => if c = '-' then rest else c :: rest

/-- Removal of one trailing hyphen, the -$ half of the regex (^-|-$)+. -/
def stripTrail : List Char → List Char
  | [] => []
  | [c] => if c = '-' then [] else [c]
  | c :: d :: rest => c :: stripTrail (d :: rest)

/-- The regex replace of -{2,} by "-": runs of two or more hyphens
collapse to a single hyphen. -/
def collapseHyphens : List Char → List Char
  | [] => []
  | [c] => [c]
  | c :: d :: rest =>
    if c = '-' ∧ d = '-' then collapseHyphens (d :: rest)
    else c :: collapseHyphens (d :: rest)

/-- slugifyTitle from the Event model: trim, lowercase, replace runs of
characters outside [a-z0-9] with "-", strip leading/trailing hyphens,
collapse repeated hyphens.  toLowerCase is modelled by the ASCII
Char.toLower. -/
def slugifyTitle (s : String) : String :=
  String.mk (collapseHyphens (stripTrail (stripLead (collapseRuns ((trimList s.toList).map Char.toLower)))))

/-- Removal of all trailing hyphens. -/
def dropTrailingHyphens : List Char → List Char
  | [] => []
  | c :: rest =>
    match dropTrailingHyphens rest with
    | [] => if c = '-' then [] else [c]
    | r => c :: r

/-- Slug computation as the specification words it: trim, lowercase,
replace every maximal run of characters outside [a-z0-9] with a single
hyphen, strip all leading and trailing hyphens, collapse repeated
hyphens. -/
def slugifyTitleSpec (s : String) : String :=
  String.mk (collapseHyphens (dropTrailingHyphens
    ((collapseRuns ((trimList s.toList).map Char.toLower)).dropWhile (fun c => decide (c = '-')))))

/-- Matcher for the slug shape [a-z0-9]+(-[a-z0-9]+)* over a whole list. -/
def slugPat : List Char → Bool
  | [] => false
  | [c] => isSlugChar c
  | c :: d :: rest =>
    isSlugChar c && (if d = '-' then slugPat rest else slugPat (d :: rest))

/-! ### Time normalization -/

/-- Decimal digit characters, the regex class \d (equivalently [0-9]). -/
def isDigitCh (c : Char) : Bool :=
  decide (48 ≤ c.toNat ∧ c.toNat ≤ 57)

/-- Characters of the regex class [0-5], the tens digit of minutes. -/
def isMinTens (c : Char) : Bool :=
  decide (48 ≤ c.toNat ∧ c.toNat ≤ 53)

/-- Numeric value of a digit character. -/
def digitVal (c : Char) : Nat :=
  c.toNat - 48

/-- pad2 from the source: n.toString().padStart(2, "0"), for n < 100. -/
def pad2 (n : Nat) : List Char :=
  [Nat.digitChar (n / 10), Nat.digitChar (n % 10)]

/-- Hour of the 24h regex alternative ([01]?\d|2[0-3]) when written with
two digits. -/
def hour2Ok (h1 h2 : Char) : Bool :=
  (decide (h1 = '0' ∨ h1 = '1') && isDigitCh h2) ||
    (decide (h1 = '2') && decide (48 ≤ h2.toNat ∧ h2.toNat ≤ 51))

/-- Anchored match of the 24h regex ^([01]?\d|2[0-3]):([0-5]\d)$,
returning the normalized output pad2(hour):minutes on success. -/
def match24 : List Char → Option (List Char)
  | [h, c, m1, m2] =>
    if c = ':' ∧ (isDigitCh h && isMinTens m1 && isDigitCh m2) = true then
      some (pad2 (digitVal h) ++ ':' :: m1 :: m2 :: [])
    else none
  | [h1, h2, c, m1, m2] =>
    if c = ':' ∧ (hour2Ok h1 h2 && isMinTens m1 && isDigitCh m2) = true then
      some (pad2 (10 * digitVal h1 + digitVal h2) ++ ':' :: m1 :: m2 :: [])
    else none
  | _ => none

/-- Parse of the 12h hour (1[0-2]|0?[1-9]) at the front of the list,
with the backtracking of the anchored regex resolved against the
colon that must follow; returns the hour value and the rest. -/
def parseHour12 : List Char → Option (Nat × List Char)
  | [] => none
  | [c] => if 49 ≤ c.toNat ∧ c.toNat ≤ 57 then some (digitVal c, []) else none
  | c :: d :: rest =>
    if c = '1' then
      if 48 ≤ d.toNat ∧ d.toNat ≤ 50 then some (10 + digitVal d, rest)
      else if d = ':' then some (1, d :: rest)
      else none
    else if c = '0' then
      if 49 ≤ d.toNat ∧ d.toNat ≤ 57 then some (digitVal d, rest) else none
    else
      if 50 ≤ c.toNat ∧ c.toNat ≤ 57 then some (digitVal c, d :: rest) else none

/-- The meridiem group [AaPp][Mm] anchored at the end; true means PM. -/
def parseMeridiem : List Char → Option Bool
  | [a, m] =>
    if (a = 'A' ∨ a = 'a') ∧ (m = 'M' ∨ m = 'm') then some false
    else if (a = 'P' ∨ a = 'p') ∧ (m = 'M' ∨ m = 'm') then some true
    else none
  | _ => none

/-- The 12h → 24h hour rule of the source: 12 AM → 0, 12 PM → 12,
otherwise AM unchanged and PM adds 12. -/
def hourTo24 (h12 : Nat) (pm : Bool) : Nat :=
  if pm then (if h12 = 12 then 12 else h12 + 12)
  else (if h12 = 12 then 0 else h12)

/-- Anchored match of the 12h regex ^(1[0-2]|0?[1-9]):([0-5]\d)\s*([AaPp][Mm])$,
returning the normalized 24h output on success. -/
def match12 (l : List Char) : Option (List Char) :=
  match parseHour12 l with
  | none => none
  | some (h12, rest) =>
    match rest with
    | ':' :: m1 :: m2 :: rest2 =>
      if (isMinTens m1 && isDigitCh m2) = true then
        match parseMeridiem (rest2.dropWhile isWsJs) with
        | none => none
        | some pm => some (pad2 (hourTo24 h12 pm) ++ ':' :: m1 :: m2 :: [])
      else none
    | _ => none

/-- Core of normalizeSingleTime: trim, try the 24h regex, then the 12h
regex; none when both fail. -/
def normSingleList (l : List Char) : Option (List Char) :=
  match match24 (trimList l) with
  | some out => some out
  | none => match12 (trimList l)

/-- The error message thrown by normalizeSingleTime. -/
def invalidTimeMsg (tok : String) : String :=
  "Invalid time format: \"" ++ tok ++ "\". Use HH:mm or h:mm AM/PM."

/-- normalizeSingleTime on a character list, with the thrown Error
modelled as an Except error. -/
def normSingleCore (l : List Char) : Except String String :=
  match normSingleList l with
  | some out => .ok (String.mk out)
  | none => .error (invalidTimeMsg (String.mk l))

/-- normalizeSingleTime from the Event model. -/
def normalizeSingleTime (s : String) : Except String String :=
  normSingleCore s.toList

/-- JavaScript String.prototype.split("-") on a character list. -/
def splitOnHyphen : List Char → List (List Char)
  | [] => [[]]
  | c :: rest =>
    if c = '-' then [] :: splitOnHyphen rest
    else
      match splitOnHyphen rest with
      | [] => [[c]]
      | h :: t => (c :: h) :: t

/-- The token list of normalizeTime: split on "-", trim each piece,
keep the non-empty pieces. -/
def timeTokens (s : String) : List (List Char) :=
  ((splitOnHyphen s.toList).map trimList).filter (fun p => !p.isEmpty)

/-- normalizeTime from the Event model: one token normalizes alone, two
tokens normalize and join with "-", any other count throws. -/
def normalizeTime (s : String) : Except String String :=
  match timeTokens s with
  | [p] => normSingleCore p
  | [p, q] =>
    match normSingleCore p with
    | .error e => .error e
    | .ok a =>
      match normSingleCore q with
      | .error e => .error e
      | .ok b => .ok (a ++ "-" ++ b)
  | _ => .error ("Invalid time range: \"" ++ s ++ "\".")

/-- The canonical time shape of the specification: HH:mm, 24-hour and
zero-padded. -/
def isHHMM : List Char → Bool
  | [a, b, c, d, e] =>
    isDigitCh a && isDigitCh b && decide (10 * digitVal a + digitVal b ≤ 23) &&
      decide (c = ':') && isMinTens d && isDigitCh e
  | _ => false

/-- The canonical time format of the specification: HH:mm or
HH:mm-HH:mm, 24-hour and zero-padded. -/
def isCanonicalTime (s : String) : Bool :=
  match s.toList with
  | [a, b, c, d, e] => isHHMM [a, b, c, d, e]
  | [a, b, c, d, e, f, g, h, i, j, k] =>
    isHHMM [a, b, c, d, e] && decide (f = '-') && isHHMM [g, h, i, j, k]
  | _ => false

/-- The hour spellings the 12h regex group (1[0-2]|0?[1-9]) accepts: a
single-digit hour with or without a leading zero, or 10, 11, 12. -/
def hourDigits12 (h : Nat) (pad : Bool) : List Char :=
  if h < 10 then (if pad then ['0', Nat.digitChar h] else [Nat.digitChar h])
  else ['1', Nat.digitChar (h - 10)]

/-- The meridiem spellings the group [AaPp][Mm] accepts, each letter
independently lowercase or uppercase. -/
def merChars (pm low1 low2 : Bool) : List Char :=
  [if pm then (if low1 then 'p' else 'P') else (if low1 then 'a' else 'A'),
   if low2 then 'm' else 'M']

/-- A general 12-hour token as the 12h regex accepts it: any admitted
hour spelling, two-digit minutes, any run of whitespace, any meridiem
spelling.  Every match of the regex has this form. -/
def render12tok (h : Nat) (pad : Bool) (m : Nat) (ws : List Char)
    (pm low1 low2 : Bool) : List Char :=
  hourDigits12 h pad ++ ':' :: (pad2 m ++ (ws ++ merChars pm low1 low2))

/-! ### Slug pipeline lemmas -/

/-- Absence of two adjacent hyphens. -/
def noDouble : List Char → Bool
  | [] => true
  | [_] => true
  | c :: d :: rest => (if c = '-' ∧ d = '-' then false else true) && noDouble (d :: rest)

lemma noDouble_cons_cons (c d : Char) (t : List Char) :
    noDouble (c :: d :: t) = ((if c = '-' ∧ d = '-' then false else true) && noDouble (d :: t)) :=
  rfl

lemma noDouble_tail {c : Char} {l : List Char} (h : noDouble (c :: l) = true) :
    noDouble l = true := by
  cases l with
  | nil => rfl
  | cons d t =>
    rw [noDouble_cons_cons, Bool.and_eq_true] at h
    exact h.2

lemma noDouble_cons {c : Char} {l : List Char} (hc : c ≠ '-') (h : noDouble l = true) :
    noDouble (c :: l) = true := by
  cases l with
  | nil => rfl
  | cons d t =>
    rw [noDouble_cons_cons, if_neg (fun hh => hc hh.1)]
    simpa using h

lemma noDouble_cons2 {c d : Char} {t : List Char} (hd : d ≠ '-') (h : noDouble (d :: t) = true) :
    noDouble (c :: d :: t) = true := by
  rw [noDouble_cons_cons, if_neg (fun hh => hd hh.2)]
  simpa using h

lemma slug_ne_hyphen {c : Char} (hc : isSlugChar c = true) : c ≠ '-' := by
  rintro rfl
  exact absurd hc (by decide)

lemma collapseRuns_head_slug {c : Char} (rest : List Char) (hc : isSlugChar c = true) :
    ∃ t, collapseRuns (c :: rest) = c :: t := by
  cases rest with
  | nil => exact ⟨[], by simp [collapseRuns, hc]⟩
  | cons d t => exact ⟨collapseRuns (d :: t), by simp [collapseRuns, hc]⟩

lemma collapseRuns_good (l : List Char) : ∀ c ∈ collapseRuns l, isSlugChar c = true ∨ c = '-' := by
  induction l using collapseRuns.induct with
  | case1 => simp [collapseRuns]
  | case2 c hc => simp [collapseRuns, hc]
  | case3 c hc => simp [collapseRuns, hc]
  | case4 c d rest hc ih =>
    simp only [collapseRuns, hc, if_true, List.mem_cons]
    rintro x (rfl | hx)
    · exact Or.inl hc
    · exact ih x hx
  | case5 c d rest hc hd ih =>
    simp only [collapseRuns, hc, hd, Bool.false_eq_true, if_false, if_true, List.mem_cons]
    rintro x (rfl | hx)
    · exact Or.inr rfl
    · exact ih x hx
  | case6 c d rest hc hd ih =>
    simpa only [collapseRuns, hc, hd, Bool.false_eq_true, if_false] using ih

lemma collapseRuns_noDouble (l : List Char) : noDouble (collapseRuns l) = true := by
  induction l using collapseRuns.induct with
  | case1 => rfl
  | case2 c hc => simp [collapseRuns, hc]; rfl
  | case3 c hc => simp [collapseRuns, hc]; rfl
  | case4 c d rest hc ih =>
    simp only [collapseRuns, hc, if_true]
    exact noDouble_cons (slug_ne_hyphen hc) ih
  | case5 c d rest hc hd ih =>
    simp only [collapseRuns, hc, hd, Bool.false_eq_true, if_false, if_true]
    obtain ⟨t, ht⟩ := collapseRuns_head_slug rest hd
    rw [ht] at ih ⊢
    exact noDouble_cons2 (slug_ne_hyphen hd) ih
  | case6 c d rest hc hd ih =>
    simpa only [collapseRuns, hc, hd, Bool.false_eq_true, if_false] using ih

lemma mem_collapseRuns {c : Char} (hc : isSlugChar c = true) :
    ∀ l, c ∈ l → c ∈ collapseRuns l := by
  intro l
  induction l using collapseRuns.induct with
  | case1 => simp
  | case2 d hd =>
    intro h
    rcases List.mem_singleton.mp h with rfl
    simp [collapseRuns, hc]
  | case3 d hd =>
    intro h
    rcases List.mem_singleton.mp h with rfl
    exact absurd hc hd
  | case4 c1 d rest h1 ih =>
    intro h
    simp only [collapseRuns, h1, if_true]
    rcases List.mem_cons.mp h with rfl | hm
    · exact List.mem_cons_self _ _
    · exact List.mem_cons_of_mem _ (ih hm)
  | case5 c1 d rest h1 h2 ih =>
    intro h
    simp only [collapseRuns, h1, h2, Bool.false_eq_true, if_false, if_true]
    rcases List.mem_cons.mp h with rfl | hm
    · exact absurd hc h1
    · exact List.mem_cons_of_mem _ (ih hm)
  | case6 c1 d rest h1 h2 ih =>
    intro h
    simp only [collapseRuns, h1, h2, Bool.false_eq_true, if_false]
    rcases List.mem_cons.mp h with rfl | hm
    · exact absurd hc h1
    · exact ih hm

lemma stripLead_eq_dropWhile {l : List Char} (h : noDouble l = true) :
    stripLead l = l.dropWhile (fun c => decide (c = '-')) := by
  cases l with
  | nil => rfl
  | cons c t =>
    by_cases hc : c = '-'
    · subst hc
      rw [List.dropWhile_cons_of_pos (by simp)]
      cases t with
      | nil => rfl
      | cons d t2 =>
        rw [noDouble_cons_cons, Bool.and_eq_true] at h
        have hd : d ≠ '-' := by
          rcases h with ⟨h1, _⟩
          intro hh
          simp [hh] at h1
        simp [stripLead, List.dropWhile_cons_of_neg, hd]
    · simp [stripLead, hc, List.dropWhile_cons_of_neg]

lemma dropTrailingHyphens_cons (c : Char) (rest : List Char) :
    dropTrailingHyphens (c :: rest) =
      (match dropTrailingHyphens rest with
       | [] => if c = '-' then [] else [c]
       | r => c :: r) :=
  rfl

lemma dropTrailingHyphens_shape (c : Char) (t : List Char) :
    dropTrailingHyphens (c :: t) = [] ∨ ∃ t', dropTrailingHyphens (c :: t) = c :: t' := by
  rw [dropTrailingHyphens_cons]
  cases h : dropTrailingHyphens t with
  | nil =>
    by_cases hc : c = '-'
    · simp [hc]
    · exact Or.inr ⟨[], by simp [hc]⟩
  | cons d r => exact Or.inr ⟨d :: r, rfl⟩

lemma dropTrailingHyphens_nil {l : List Char} (h : dropTrailingHyphens l = []) :
    ∀ x ∈ l, x = '-' := by
  induction l with
  | nil => simp
  | cons c rest ih =>
    rw [dropTrailingHyphens_cons] at h
    cases hr : dropTrailingHyphens rest with
    | nil =>
      rw [hr] at h
      by_cases hc : c = '-'
      · intro x hx
        rcases List.mem_cons.mp hx with rfl | hx2
        · exact hc
        · exact ih hr x hx2
      · simp [hc] at h
    | cons d r =>
      rw [hr] at h
      simp at h
lemma dropTrailingHyphens_last (l : List Char) :
    dropTrailingHyphens l = [] ∨
      ∃ t c, dropTrailingHyphens l = t ++ [c] ∧ c ≠ '-' := by
  induction l with
  | nil => exact Or.inl rfl
  | cons c rest ih =>
    rw [dropTrailingHyphens_cons]
    cases hr : dropTrailingHyphens rest with
    | nil =>
      by_cases hc : c = '-'
      · simp [hc]
      · exact Or.inr ⟨[], c, by simp [hc], hc⟩
    | cons d r =>
      rcases ih with h0 | ⟨t, c0, ht, hc0⟩
      · exact absurd (h0.symm.trans hr) (by simp)
      · rw [hr] at ht
        refine Or.inr ⟨c :: t, c0, ?_, hc0⟩
        show c :: d :: r = c :: t ++ [c0]
        rw [ht]
        rfl

lemma mem_dropTrailingHyphens {c : Char} :
    ∀ {l : List Char}, c ∈ dropTrailingHyphens l → c ∈ l := by
  intro l
  induction l with
  | nil => simp [dropTrailingHyphens]
  | cons d rest ih =>
    rw [dropTrailingHyphens_cons]
    cases h : dropTrailingHyphens rest with
    | nil =>
      by_cases hd : d = '-'
      · simp [hd]
      · intro hm
        rcases List.mem_singleton.mp (by simpa [hd] using hm) with rfl
        exact List.mem_cons_self _ _
    | cons e r =>
      intro hm
      rcases List.mem_cons.mp hm with rfl | hm2
      · exact List.mem_cons_self _ _
      · exact List.mem_cons_of_mem _ (ih (h ▸ hm2))

lemma noDouble_dropTrailingHyphens {l : List Char} (h : noDouble l = true) :
    noDouble (dropTrailingHyphens l) = true := by
  induction l with
  | nil => rfl
  | cons c rest ih =>
    rw [dropTrailingHyphens_cons]
    cases hr : dropTrailingHyphens rest with
    | nil =>
      by_cases hc : c = '-' <;> simp [hc] <;> rfl
    | cons d r =>
      have ih2 := ih (noDouble_tail h)
      rw [hr] at ih2
      cases rest with
      | nil => simp [dropTrailingHyphens] at hr
      | cons d0 t0 =>
        rcases dropTrailingHyphens_shape d0 t0 with h0 | ⟨t', ht'⟩
        · rw [h0] at hr
          exact absurd hr (by simp)
        · rw [ht'] at hr
          injection hr with h1 h2
          subst h1
          rw [noDouble_cons_cons, Bool.and_eq_true] at h
          rw [noDouble_cons_cons, Bool.and_eq_true]
          exact ⟨h.1, ih2⟩

lemma stripTrail_eq_dropTrailing {l : List Char} (h : noDouble l = true) :
    stripTrail l = dropTrailingHyphens l := by
  induction l with
  | nil => rfl
  | cons c rest ih =>
    have ih2 := ih (noDouble_tail h)
    cases rest with
    | nil =>
      show (if c = '-' then [] else [c]) = _
      rw [dropTrailingHyphens_cons]
      rfl
    | cons d t =>
      show c :: stripTrail (d :: t) = _
      rw [dropTrailingHyphens_cons, ih2]
      cases hr : dropTrailingHyphens (d :: t) with
      | cons e r => rfl
      | nil =>
        have hall := dropTrailingHyphens_nil hr
        have hd : d = '-' := hall d (List.mem_cons_self _ _)
        cases t with
        | nil =>
          have hc : c ≠ '-' := by
            intro hc
            rw [hd, hc, noDouble_cons_cons, Bool.and_eq_true] at h
            simpa using h.1
          simp [stripTrail, hd, hc]
        | cons e t2 =>
          exfalso
          have he : e = '-' := hall e (List.mem_cons_of_mem _ (List.mem_cons_self _ _))
          have h2 := noDouble_tail h
          rw [hd, he, noDouble_cons_cons, Bool.and_eq_true] at h2
          simpa using h2.1

lemma noDouble_dropWhile (p : Char → Bool) :
    ∀ {l : List Char}, noDouble l = true → noDouble (l.dropWhile p) = true := by
  intro l
  induction l with
  | nil => intro h; exact h
  | cons c t ih =>
    intro h
    by_cases hc : p c = true
    · rw [List.dropWhile_cons_of_pos hc]
      exact ih (noDouble_tail h)
    · rw [List.dropWhile_cons_of_neg (by simpa using hc)]
      exact h

lemma mem_dropWhile_imp (p : Char → Bool) {c : Char} :
    ∀ {l : List Char}, c ∈ l.dropWhile p → c ∈ l := by
  intro l
  induction l with
  | nil => intro h; exact h
  | cons d t ih =>
    intro h
    by_cases hd : p d = true
    · rw [List.dropWhile_cons_of_pos hd] at h
      exact List.mem_cons_of_mem _ (ih h)
    · rw [List.dropWhile_cons_of_neg (by simpa using hd)] at h
      exact h

lemma mem_dropWhile_of_not (p : Char → Bool) {c : Char} (hc : p c = false) :
    ∀ {l : List Char}, c ∈ l → c ∈ l.dropWhile p := by
  intro l
  induction l with
  | nil => intro h; exact h
  | cons d t ih =>
    intro h
    by_cases hd : p d = true
    · rw [List.dropWhile_cons_of_pos hd]
      rcases List.mem_cons.mp h with rfl | h2
      · rw [hd] at hc; exact absurd hc (by simp)
      · exact ih h2
    · rw [List.dropWhile_cons_of_neg (by simpa using hd)]
      exact h

lemma dropWhile_head_not (p : Char → Bool) :
    ∀ {l : List Char} {c : Char} {t : List Char}, l.dropWhile p = c :: t → p c = false := by
  intro l
  induction l with
  | nil => intro c t h; exact absurd h (by simp)
  | cons d r ih =>
    intro c t h
    by_cases hd : p d = true
    · rw [List.dropWhile_cons_of_pos hd] at h
      exact ih h
    · rw [List.dropWhile_cons_of_neg (by simpa using hd)] at h
      injection h with h1 _
      rw [← h1]
      simpa using hd

lemma collapseHyphens_id : ∀ {l : List Char}, noDouble l = true → collapseHyphens l = l := by
  intro l
  induction l using collapseHyphens.induct with
  | case1 => intro _; rfl
  | case2 c => intro _; rfl
  | case3 c d rest hcd ih =>
    intro h
    rw [noDouble_cons_cons, Bool.and_eq_true, if_pos hcd] at h
    exact absurd h.1 (by simp)
  | case4 c d rest hcd ih =>
    intro h
    show (if c = '-' ∧ d = '-' then collapseHyphens (d :: rest) else c :: collapseHyphens (d :: rest)) = c :: d :: rest
    rw [if_neg hcd, ih (noDouble_tail h)]

lemma mem_stripLead {c : Char} (hc : c ≠ '-') {l : List Char} (h : c ∈ l) :
    c ∈ stripLead l := by
  cases l with
  | nil => exact h
  | cons d t =>
    show c ∈ (if d = '-' then t else d :: t)
    by_cases hd : d = '-'
    · rw [if_pos hd]
      rcases List.mem_cons.mp h with rfl | h2
      · exact absurd hd hc
      · exact h2
    · rw [if_neg hd]
      exact h

lemma mem_stripTrail {c : Char} (hc : c ≠ '-') :
    ∀ {l : List Char}, c ∈ l → c ∈ stripTrail l := by
  intro l
  induction l using stripTrail.induct with
  | case1 => intro h; exact h
  | case2 =>
    intro h
    rcases List.mem_singleton.mp h with rfl
    exact absurd rfl hc
  | case3 d hd =>
    intro h
    rcases List.mem_singleton.mp h with rfl
    show c ∈ (if c = '-' then [] else [c])
    rw [if_neg hc]
    exact List.mem_singleton.mpr rfl
  | case4 d e t ih =>
    intro h
    show c ∈ d :: stripTrail (e :: t)
    rcases List.mem_cons.mp h with rfl | h2
    · exact List.mem_cons_self _ _
    · exact List.mem_cons_of_mem _ (ih h2)

lemma mem_collapseHyphens {c : Char} (hc : c ≠ '-') :
    ∀ {l : List Char}, c ∈ l → c ∈ collapseHyphens l := by
  intro l
  induction l using collapseHyphens.induct with
  | case1 => intro h; exact h
  | case2 d => intro h; exact h
  | case3 d e rest hde ih =>
    intro h
    show c ∈ (if d = '-' ∧ e = '-' then collapseHyphens (e :: rest) else d :: collapseHyphens (e :: rest))
    rw [if_pos hde]
    rcases List.mem_cons.mp h with rfl | h2
    · exact absurd hde.1 hc
    · exact ih h2
  | case4 d e rest hde ih =>
    intro h
    show c ∈ (if d = '-' ∧ e = '-' then collapseHyphens (e :: rest) else d :: collapseHyphens (e :: rest))
    rw [if_neg hde]
    rcases List.mem_cons.mp h with rfl | h2
    · exact List.mem_cons_self _ _
    · exact List.mem_cons_of_mem _ (ih h2)

lemma last_eq_of_concat {A : List Char} {t0 t1 : List Char} {c0 c1 : Char}
    (h0 : A = t0 ++ [c0]) (h1 : A = t1 ++ [c1]) : c0 = c1 := by
  have h := congrArg List.getLast? (h0.symm.trans h1)
  simpa [List.getLast?_concat] using h

lemma slugPat_of :
    ∀ l : List Char, (∀ c ∈ l, isSlugChar c = true ∨ c = '-') → noDouble l = true →
      (∀ c t, l = c :: t → isSlugChar c = true) →
      (∀ t c, l = t ++ [c] → isSlugChar c = true) →
      l ≠ [] → slugPat l = true := by
  intro l
  induction l using slugPat.induct with
  | case1 =>
    intro _ _ _ _ hne
    exact absurd rfl hne
  | case2 c =>
    intro _ _ hh _ _
    simpa [slugPat] using hh c [] rfl
  | case3 c d rest ih1 ih2 =>
    intro hg hnd hh hl _
    have hc : isSlugChar c = true := hh c (d :: rest) rfl
    show (isSlugChar c && (if d = '-' then slugPat rest else slugPat (d :: rest))) = true
    rw [hc, Bool.true_and]
    by_cases hd : d = '-'
    · rw [if_pos hd]
      subst hd
      cases rest with
      | nil => exact absurd (hl [c] '-' rfl) (by decide)
      | cons e t =>
        have hnd2 := noDouble_tail hnd
        rw [noDouble_cons_cons, Bool.and_eq_true] at hnd2
        have he : e ≠ '-' := by
          intro hh2
          simp [hh2] at hnd2
        have heS : isSlugChar e = true := by
          rcases hg e (by simp) with h | h
          · exact h
          · exact absurd h he
        apply ih1
        · intro x hx
          exact hg x (by simp [hx])
        · exact noDouble_tail (noDouble_tail hnd)
        · intro c0 t0 h0
          injection h0 with h1 _
          rw [← h1]
          exact heS
        · intro t0 c0 h0
          exact hl (c :: '-' :: t0) c0 (by rw [List.cons_append, List.cons_append, ← h0])
        · simp
    · rw [if_neg hd]
      have hdS : isSlugChar d = true := by
        rcases hg d (by simp) with h | h
        · exact h
        · exact absurd h hd
      apply ih2
      · intro x hx
        exact hg x (List.mem_cons_of_mem _ hx)
      · exact noDouble_tail hnd
      · intro c0 t0 h0
        injection h0 with h1 _
        rw [← h1]
        exact hdS
      · intro t0 c0 h0
        exact hl (c :: t0) c0 (by rw [List.cons_append, ← h0])
      · simp

lemma slug_pipeline_eq (M : List Char) (hnd : noDouble M = true) :
    collapseHyphens (stripTrail (stripLead M)) =
      collapseHyphens (dropTrailingHyphens (M.dropWhile (fun c => decide (c = '-')))) := by
  rw [stripLead_eq_dropWhile hnd,
    stripTrail_eq_dropTrailing (noDouble_dropWhile _ hnd)]

lemma slug_pipeline_pat (M : List Char) (hg : ∀ c ∈ M, isSlugChar c = true ∨ c = '-')
    (hnd : noDouble M = true) :
    collapseHyphens (stripTrail (stripLead M)) = [] ∨
      slugPat (collapseHyphens (stripTrail (stripLead M))) = true := by
  rw [slug_pipeline_eq M hnd]
  have hndD : noDouble (dropTrailingHyphens (M.dropWhile (fun c => decide (c = '-')))) = true :=
    noDouble_dropTrailingHyphens (noDouble_dropWhile _ hnd)
  rw [collapseHyphens_id hndD]
  cases hE : dropTrailingHyphens (M.dropWhile (fun c => decide (c = '-'))) with
  | nil => exact Or.inl rfl
  | cons c t =>
    right
    have hlast := dropTrailingHyphens_last (M.dropWhile (fun c => decide (c = '-')))
    rw [hE] at hlast hndD
    apply slugPat_of
    · intro x hx
      exact hg x (mem_dropWhile_imp _ (mem_dropTrailingHyphens (hE ▸ hx)))
    · exact hndD
    · intro c0 t0 h0
      injection h0 with h1 _
      rw [← h1]
      -- the head of the stripped list is the head of the dropWhile result
      cases hW : M.dropWhile (fun c => decide (c = '-')) with
      | nil =>
        rw [hW] at hE
        exact absurd hE (by simp [dropTrailingHyphens])
      | cons w ws =>
        rw [hW] at hE
        rcases dropTrailingHyphens_shape w ws with h2 | ⟨t', ht'⟩
        · exact absurd (h2.symm.trans hE) (by simp)
        · have hw : w = c := by
            rw [ht'] at hE
            injection hE with hE1 _
          have hnw : ¬(w = '-') := by
            have := dropWhile_head_not (fun c => decide (c = '-')) hW
            simpa using this
          have hnc : ¬(c = '-') := by
            rw [← hw]
            exact hnw
          have hcM : c ∈ M := by
            apply mem_dropWhile_imp (fun c => decide (c = '-'))
            rw [hW, ← hw]
            exact List.mem_cons_self w ws
          rcases hg c hcM with h | h
          · exact h
          · exact absurd h hnc
    · intro t0 c0 h0
      rcases hlast with h2 | ⟨t1, c1, ht1, hc1⟩
      · exact absurd h2 (by simp)
      · have : c0 = c1 := last_eq_of_concat h0 ht1
        subst this
        have hcm : c0 ∈ c :: t := by
          rw [h0]
          simp
        rcases hg c0 (mem_dropWhile_imp _ (mem_dropTrailingHyphens (hE ▸ hcm))) with h | h
        · exact h
        · exact absurd h hc1
    · simp

lemma ws_toLower {c : Char} (h : isWsJs c = true) : Char.toLower c = c := by
  have hn : c.toNat < 65 := by
    simp [isWsJs] at h
    rcases h with h | h | h | h | h | h <;> omega
  show (if c.toNat ≥ 65 ∧ c.toNat ≤ 90 then Char.ofNat (c.toNat + 32) else c) = c
  rw [if_neg (fun hh => by omega)]

lemma slug_not_ws {c : Char} (h : isSlugChar c = true) : isWsJs c = false := by
  simp only [isSlugChar, decide_eq_true_eq] at h
  simp only [isWsJs, decide_eq_false_iff_not]
  omega

lemma mem_trimList {c : Char} {l : List Char} (h : c ∈ l) (hw : isWsJs c = false) :
    c ∈ trimList l := by
  unfold trimList
  rw [List.mem_reverse]
  apply mem_dropWhile_of_not _ hw
  rw [List.mem_reverse]
  exact mem_dropWhile_of_not _ hw h

/-- C1: slugifyTitle equals the specified pipeline (trim, lowercase,
replace runs outside [a-z0-9] with one hyphen, strip edge hyphens,
collapse repeated hyphens); the result is empty or matches
[a-z0-9]+(-[a-z0-9]+)*, it is empty only when the title has no
character that lowercases into [a-z0-9], and "My Big Event!!" slugs to
"my-big-event". -/
theorem slugifyTitle_spec_correct (s : String) :
    slugifyTitle s = slugifyTitleSpec s ∧
    (slugifyTitle s = "" ∨ slugPat (slugifyTitle s).toList = true) ∧
    (slugifyTitle s = "" → ∀ c ∈ s.toList, isSlugChar (Char.toLower c) = false) ∧
    slugifyTitle "My Big Event!!" = "my-big-event" := by
  have hg := collapseRuns_good ((trimList s.toList).map Char.toLower)
  have hnd := collapseRuns_noDouble ((trimList s.toList).map Char.toLower)
  refine ⟨congrArg String.mk (slug_pipeline_eq _ hnd), ?_, ?_, by decide⟩
  · rcases slug_pipeline_pat _ hg hnd with h | h
    · left
      show String.mk _ = ""
      rw [h]
    · right
      exact h
  · intro hempty c hc
    by_contra hne
    have hsc : isSlugChar (Char.toLower c) = true := by
      revert hne
      cases isSlugChar (Char.toLower c) <;> simp
    have hcw : isWsJs c = false := by
      by_cases hwc : isWsJs c = true
      · rw [ws_toLower hwc] at hsc
        rw [slug_not_ws hsc] at hwc
        exact absurd hwc (by simp)
      · simpa using hwc
    have h1 : Char.toLower c ∈ (trimList s.toList).map Char.toLower :=
      List.mem_map_of_mem _ (mem_trimList hc hcw)
    have h2 := mem_collapseRuns hsc _ h1
    have hneH := slug_ne_hyphen hsc
    have h3 := mem_collapseHyphens hneH (mem_stripTrail hneH (mem_stripLead hneH h2))
    have h4 : Char.toLower c ∈ (slugifyTitle s).toList := h3
    rw [hempty] at h4
    exact absurd h4 (List.not_mem_nil _)

/-- Witness: the C1 theorem evaluated at the concrete title of the
specification example. -/
theorem slugifyTitle_spec_correct_witness :
    slugifyTitle "My Big Event!!" = "my-big-event" :=
  (slugifyTitle_spec_correct "My Big Event!!").2.2.2

/-! ### Digit and pad2 lemmas -/

lemma digitChar_digit {d : Nat} (h : d ≤ 9) : isDigitCh (Nat.digitChar d) = true := by
  interval_cases d <;> decide

lemma digitVal_digitChar {d : Nat} (h : d ≤ 9) : digitVal (Nat.digitChar d) = d := by
  interval_cases d <;> decide

lemma minTens_digit {c : Char} (h : isMinTens c = true) : isDigitCh c = true := by
  simp only [isMinTens, decide_eq_true_eq] at h
  simp only [isDigitCh, decide_eq_true_eq]
  omega

lemma digit_slug {c : Char} (h : isDigitCh c = true) : isSlugChar c = true := by
  simp only [isDigitCh, decide_eq_true_eq] at h
  simp only [isSlugChar, decide_eq_true_eq]
  omega

lemma digit_not_ws {c : Char} (h : isDigitCh c = true) : isWsJs c = false :=
  slug_not_ws (digit_slug h)

lemma digit_ne_hyphen {c : Char} (h : isDigitCh c = true) : decide (c = '-') = false := by
  have := slug_ne_hyphen (digit_slug h)
  simpa using this

lemma digitVal_le {c : Char} (h : isDigitCh c = true) : digitVal c ≤ 9 := by
  simp only [isDigitCh, decide_eq_true_eq] at h
  unfold digitVal
  omega

lemma pad2_digits {n : Nat} (h : n ≤ 99) :
    isDigitCh (Nat.digitChar (n / 10)) = true ∧ isDigitCh (Nat.digitChar (n % 10)) = true ∧
      10 * digitVal (Nat.digitChar (n / 10)) + digitVal (Nat.digitChar (n % 10)) = n := by
  have h1 : n / 10 ≤ 9 := by omega
  have h2 : n % 10 ≤ 9 := by omega
  refine ⟨digitChar_digit h1, digitChar_digit h2, ?_⟩
  rw [digitVal_digitChar h1, digitVal_digitChar h2]
  omega

lemma hour2Ok_pad2 {n : Nat} (h : n ≤ 23) :
    hour2Ok (Nat.digitChar (n / 10)) (Nat.digitChar (n % 10)) = true := by
  interval_cases n <;> decide

lemma isHHMM_intro {a b d e : Char} (ha : isDigitCh a = true) (hb : isDigitCh b = true)
    (hn : 10 * digitVal a + digitVal b ≤ 23) (hd : isMinTens d = true) (he : isDigitCh e = true) :
    isHHMM [a, b, ':', d, e] = true := by
  show (isDigitCh a && isDigitCh b && decide (10 * digitVal a + digitVal b ≤ 23) &&
    decide (':' = ':') && isMinTens d && isDigitCh e) = true
  rw [ha, hb, hd, he, decide_eq_true hn]
  rfl

lemma dropWhile_eq_self_of {p : Char → Bool} {l : List Char} (h : ∀ c ∈ l, p c = false) :
    l.dropWhile p = l := by
  cases l with
  | nil => rfl
  | cons c t => exact List.dropWhile_cons_of_neg (by simp [h c (List.mem_cons_self c t)])

lemma trimList_eq_self {l : List Char} (h : ∀ c ∈ l, isWsJs c = false) : trimList l = l := by
  unfold trimList
  rw [dropWhile_eq_self_of h,
    dropWhile_eq_self_of (fun c hc => h c (List.mem_reverse.mp hc)), List.reverse_reverse]

lemma match24_pad2 {n : Nat} (hn : n ≤ 23) {m1 m2 : Char}
    (h1 : isMinTens m1 = true) (h2 : isDigitCh m2 = true) :
    match24 (pad2 n ++ ':' :: m1 :: m2 :: []) = some (pad2 n ++ ':' :: m1 :: m2 :: []) := by
  show (if ':' = ':' ∧ (hour2Ok (Nat.digitChar (n / 10)) (Nat.digitChar (n % 10)) &&
        isMinTens m1 && isDigitCh m2) = true then
      some (pad2 (10 * digitVal (Nat.digitChar (n / 10)) + digitVal (Nat.digitChar (n % 10))) ++
        ':' :: m1 :: m2 :: [])
    else none) = some (pad2 n ++ ':' :: m1 :: m2 :: [])
  rw [if_pos ⟨rfl, by rw [hour2Ok_pad2 hn, h1, h2]; rfl⟩, (pad2_digits (by omega)).2.2]

lemma match24_some : ∀ {t out : List Char}, match24 t = some out →
    ∃ n m1 m2, n ≤ 23 ∧ isMinTens m1 = true ∧ isDigitCh m2 = true ∧
      out = pad2 n ++ ':' :: m1 :: m2 :: [] := by
  intro t out h
  match t with
  | [] => exact absurd h (by simp [match24])
  | [a] => exact absurd h (by simp [match24])
  | [a, b] => exact absurd h (by simp [match24])
  | [a, b, c] => exact absurd h (by simp [match24])
  | [a, c, m1, m2] =>
    replace h : (if c = ':' ∧ (isDigitCh a && isMinTens m1 && isDigitCh m2) = true then
        some (pad2 (digitVal a) ++ ':' :: m1 :: m2 :: []) else none) = some out := h
    split at h
    next hcond =>
      obtain ⟨rfl, hb⟩ := hcond
      simp only [Bool.and_eq_true] at hb
      injection h with h
      exact ⟨digitVal a, m1, m2, le_trans (digitVal_le hb.1.1) (by norm_num),
        hb.1.2, hb.2, h.symm⟩
    next => exact absurd h (by simp)
  | [a, b, c, m1, m2] =>
    replace h : (if c = ':' ∧ (hour2Ok a b && isMinTens m1 && isDigitCh m2) = true then
        some (pad2 (10 * digitVal a + digitVal b) ++ ':' :: m1 :: m2 :: []) else none) = some out := h
    split at h
    next hcond =>
      obtain ⟨rfl, hb⟩ := hcond
      simp only [Bool.and_eq_true] at hb
      injection h with h
      refine ⟨10 * digitVal a + digitVal b, m1, m2, ?_, hb.1.2, hb.2, h.symm⟩
      have hok := hb.1.1
      simp only [hour2Ok, Bool.or_eq_true, Bool.and_eq_true, decide_eq_true_eq] at hok
      rcases hok with ⟨ha, hdb⟩ | ⟨ha, hbn⟩
      · have hb9 := digitVal_le hdb
        rcases ha with rfl | rfl
        · have h0 : digitVal '0' = 0 := rfl
          omega
        · have h1 : digitVal '1' = 1 := rfl
          omega
      · subst ha
        have h2 : ('2').toNat = 50 := rfl
        unfold digitVal
        omega
    next => exact absurd h (by simp)
  | a :: b :: c :: d :: e :: f :: t6 => exact absurd h (by simp [match24])

lemma parseHour12_some : ∀ {l : List Char} {h12 : Nat} {rest : List Char},
    parseHour12 l = some (h12, rest) → 1 ≤ h12 ∧ h12 ≤ 12 := by
  intro l h12 rest h
  match l with
  | [] => exact absurd h (by simp [parseHour12])
  | [c] =>
    replace h : (if 49 ≤ c.toNat ∧ c.toNat ≤ 57 then some (digitVal c, ([] : List Char))
        else none) = some (h12, rest) := h
    split at h
    next hc =>
      injection h with h1
      injection h1 with h1 _
      unfold digitVal at h1
      omega
    next => exact absurd h (by simp)
  | c :: d :: r =>
    replace h : (if c = '1' then
        (if 48 ≤ d.toNat ∧ d.toNat ≤ 50 then some (10 + digitVal d, r)
         else if d = ':' then some (1, d :: r) else none)
      else if c = '0' then
        (if 49 ≤ d.toNat ∧ d.toNat ≤ 57 then some (digitVal d, r) else none)
      else
        (if 50 ≤ c.toNat ∧ c.toNat ≤ 57 then some (digitVal c, d :: r) else none)) =
          some (h12, rest) := h
    split at h
    next hc =>
      split at h
      next hd =>
        injection h with h1
        injection h1 with h1 _
        unfold digitVal at h1
        omega
      next =>
        split at h
        next =>
          injection h with h1
          injection h1 with h1 _
          omega
        next => exact absurd h (by simp)
    next hc =>
      split at h
      next hc0 =>
        split at h
        next hd =>
          injection h with h1
          injection h1 with h1 _
          unfold digitVal at h1
          omega
        next => exact absurd h (by simp)
      next =>
        split at h
        next hcn =>
          injection h with h1
          injection h1 with h1 _
          unfold digitVal at h1
          omega
        next => exact absurd h (by simp)

lemma hourTo24_le {h12 : Nat} (hb : 1 ≤ h12 ∧ h12 ≤ 12) (pm : Bool) :
    hourTo24 h12 pm ≤ 23 := by
  unfold hourTo24
  cases pm
  · rw [if_neg (by simp)]
    split <;> omega
  · rw [if_pos rfl]
    split <;> omega

lemma match12_some {t out : List Char} (h : match12 t = some out) :
    ∃ n m1 m2, n ≤ 23 ∧ isMinTens m1 = true ∧ isDigitCh m2 = true ∧
      out = pad2 n ++ ':' :: m1 :: m2 :: [] := by
  cases hp : parseHour12 t with
  | none =>
    unfold match12 at h
    rw [hp] at h
    exact absurd h (by simp)
  | some pr =>
    obtain ⟨h12, rest⟩ := pr
    have hb := parseHour12_some hp
    unfold match12 at h
    rw [hp] at h
    dsimp only at h
    split at h
    · rename_i m1 m2 rest2
      split at h
      · rename_i hcond
        simp only [Bool.and_eq_true] at hcond
        cases hm : parseMeridiem (rest2.dropWhile isWsJs) with
        | none =>
          rw [hm] at h
          exact absurd h (by simp)
        | some pm =>
          rw [hm] at h
          injection h with h
          exact ⟨hourTo24 h12 pm, m1, m2, hourTo24_le hb pm, hcond.1, hcond.2, h.symm⟩
      · exact absurd h (by simp)
    · exact absurd h (by simp)

lemma normOut_shape {l out : List Char} (h : normSingleList l = some out) :
    ∃ n m1 m2, n ≤ 23 ∧ isMinTens m1 = true ∧ isDigitCh m2 = true ∧
      out = pad2 n ++ ':' :: m1 :: m2 :: [] := by
  unfold normSingleList at h
  cases h24 : match24 (trimList l) with
  | some o =>
    rw [h24] at h
    dsimp only at h
    injection h with h
    exact h ▸ match24_some h24
  | none =>
    rw [h24] at h
    dsimp only at h
    exact match12_some h

lemma normOut_fixed {n : Nat} (hn : n ≤ 23) {m1 m2 : Char}
    (h1 : isMinTens m1 = true) (h2 : isDigitCh m2 = true) :
    normSingleList (pad2 n ++ ':' :: m1 :: m2 :: []) = some (pad2 n ++ ':' :: m1 :: m2 :: []) ∧
    isHHMM (pad2 n ++ ':' :: m1 :: m2 :: []) = true ∧
    (∀ c ∈ pad2 n ++ ':' :: m1 :: m2 :: [], isWsJs c = false ∧ c ≠ '-') := by
  obtain ⟨hd1, hd2, hv⟩ := pad2_digits (le_trans hn (by norm_num) : n ≤ 99)
  have hmem : ∀ c ∈ pad2 n ++ ':' :: m1 :: m2 :: [], isWsJs c = false ∧ c ≠ '-' := by
    intro c hc
    simp only [pad2, List.cons_append, List.nil_append, List.mem_cons, List.not_mem_nil,
      or_false] at hc
    rcases hc with rfl | rfl | rfl | rfl | rfl
    · exact ⟨digit_not_ws hd1, slug_ne_hyphen (digit_slug hd1)⟩
    · exact ⟨digit_not_ws hd2, slug_ne_hyphen (digit_slug hd2)⟩
    · exact ⟨by decide, by decide⟩
    · exact ⟨digit_not_ws (minTens_digit h1), slug_ne_hyphen (digit_slug (minTens_digit h1))⟩
    · exact ⟨digit_not_ws h2, slug_ne_hyphen (digit_slug h2)⟩
  refine ⟨?_, ?_, hmem⟩
  · unfold normSingleList
    rw [trimList_eq_self (fun c hc => (hmem c hc).1), match24_pad2 hn h1 h2]
  · exact isHHMM_intro hd1 hd2 (by omega) h1 h2

lemma normSingle_canonical {l out : List Char} (h : normSingleList l = some out) :
    normSingleList out = some out ∧ isHHMM out = true ∧
      (∀ c ∈ out, isWsJs c = false ∧ c ≠ '-') := by
  obtain ⟨n, m1, m2, hn, h1, h2, rfl⟩ := normOut_shape h
  exact normOut_fixed hn h1 h2

instance : DecidableEq (Except String String) := fun a b =>
  match a, b with
  | .ok x, .ok y =>
    if h : x = y then .isTrue (by rw [h]) else .isFalse (fun hh => h (Except.ok.inj hh))
  | .error x, .error y =>
    if h : x = y then .isTrue (by rw [h]) else .isFalse (fun hh => h (Except.error.inj hh))
  | .ok _, .error _ => .isFalse (fun hh => Except.noConfusion hh)
  | .error _, .ok _ => .isFalse (fun hh => Except.noConfusion hh)

lemma parseHour12_render {h : Nat} (h1 : 1 ≤ h) (h2 : h ≤ 12) (pad : Bool) (R : List Char) :
    parseHour12 (hourDigits12 h pad ++ ':' :: R) = some (h, ':' :: R) := by
  interval_cases h <;> cases pad <;> rfl

lemma match24_none_long : ∀ {l : List Char}, 6 ≤ l.length → match24 l = none := by
  intro l hl
  match l with
  | [] => simp at hl
  | [a] => simp at hl
  | [a, b] => simp at hl
  | [a, b, c] => simp at hl
  | [a, b, c, d] => simp at hl
  | [a, b, c, d, e] => simp at hl
  | a :: b :: c :: d :: e :: f :: t => rfl

lemma dropWhile_append_of_all {p : Char → Bool} : ∀ {ws R : List Char},
    (∀ c ∈ ws, p c = true) → (ws ++ R).dropWhile p = R.dropWhile p := by
  intro ws R
  induction ws with
  | nil => intro _; rfl
  | cons c t ih =>
    intro h
    rw [List.cons_append, List.dropWhile_cons_of_pos (h c (List.mem_cons_self _ _))]
    exact ih (fun x hx => h x (List.mem_cons_of_mem _ hx))

lemma digitChar_minTens {d : Nat} (h : d ≤ 5) : isMinTens (Nat.digitChar d) = true := by
  interval_cases d <;> decide

lemma trimList_concat_edges {c d : Char} {l : List Char}
    (hc : isWsJs c = false) (hd : isWsJs d = false) :
    trimList (c :: (l ++ [d])) = c :: (l ++ [d]) := by
  unfold trimList
  rw [List.dropWhile_cons_of_neg (by simp [hc])]
  have hrev : (c :: (l ++ [d])).reverse = d :: (l.reverse ++ [c]) := by simp
  rw [hrev, List.dropWhile_cons_of_neg (by simp [hd])]
  rw [← hrev, List.reverse_reverse]

/-- C2: normalizeSingleTime maps every valid 12-hour token — any hour
spelling 1..12 with optional leading zero, two-digit minutes, any
whitespace run before the meridiem, and any letter case of AM/PM — to
the zero-padded 24-hour form by the rule 12 AM → 00, 12 PM → 12, any
other AM hour unchanged, any other PM hour plus 12; in particular
"2:30 PM" → "14:30", "12:00 AM" → "00:00" and "12:00 PM" → "12:00". -/
theorem normalizeSingleTime_12h_rule (h m : Nat) (pad pm low1 low2 : Bool)
    (ws : List Char) (hh1 : 1 ≤ h) (hh2 : h ≤ 12) (hm : m ≤ 59)
    (hws : ∀ c ∈ ws, isWsJs c = true) :
    normalizeSingleTime (String.mk (render12tok h pad m ws pm low1 low2)) =
      .ok (String.mk (pad2 (hourTo24 h pm) ++ ':' :: pad2 m)) ∧
    normalizeSingleTime "2:30 PM" = .ok "14:30" ∧
    normalizeSingleTime "12:00 AM" = .ok "00:00" ∧
    normalizeSingleTime "12:00 PM" = .ok "12:00" := by
  refine ⟨?_, by decide, by decide, by decide⟩
  obtain ⟨x, y, hxy, hwx, hwy, hpm⟩ :
      ∃ x y, merChars pm low1 low2 = [x, y] ∧ isWsJs x = false ∧ isWsJs y = false ∧
        parseMeridiem [x, y] = some pm := by
    cases pm <;> cases low1 <;> cases low2 <;>
      exact ⟨_, _, rfl, by decide, by decide, by decide⟩
  obtain ⟨c0, hdt, hhd, hwc⟩ :
      ∃ c0 hdt, hourDigits12 h pad = c0 :: hdt ∧ isWsJs c0 = false := by
    unfold hourDigits12
    split
    · cases pad
      · exact ⟨Nat.digitChar h, [], by rw [if_neg (by simp)],
          digit_not_ws (digitChar_digit (by omega))⟩
      · exact ⟨'0', [Nat.digitChar h], by rw [if_pos rfl], by decide⟩
    · exact ⟨'1', [Nat.digitChar (h - 10)], rfl, by decide⟩
  have hshape : render12tok h pad m ws pm low1 low2
      = c0 :: ((hdt ++ ':' :: (pad2 m ++ (ws ++ [x]))) ++ [y]) := by
    unfold render12tok
    rw [hhd, hxy]
    simp
  have htrim : trimList (render12tok h pad m ws pm low1 low2)
      = render12tok h pad m ws pm low1 low2 := by
    rw [hshape]
    exact trimList_concat_edges hwc hwy
  have hlen : 6 ≤ (render12tok h pad m ws pm low1 low2).length := by
    rw [hshape]
    simp [pad2]
    omega
  have h12 : match12 (render12tok h pad m ws pm low1 low2)
      = some (pad2 (hourTo24 h pm) ++ ':' :: pad2 m) := by
    unfold match12 render12tok
    rw [parseHour12_render hh1 hh2 pad]
    show (if (isMinTens (Nat.digitChar (m / 10)) && isDigitCh (Nat.digitChar (m % 10))) = true
        then
          match parseMeridiem ((ws ++ merChars pm low1 low2).dropWhile isWsJs) with
          | none => none
          | some pm2 =>
            some (pad2 (hourTo24 h pm2) ++ ':' :: Nat.digitChar (m / 10) ::
              Nat.digitChar (m % 10) :: [])
        else none) = some (pad2 (hourTo24 h pm) ++ ':' :: pad2 m)
    rw [digitChar_minTens (by omega), digitChar_digit (by omega),
      if_pos (show (true && true) = true from rfl),
      dropWhile_append_of_all hws, hxy, List.dropWhile_cons_of_neg (by simp [hwx]), hpm]
    rfl
  show normSingleCore (render12tok h pad m ws pm low1 low2)
      = .ok (String.mk (pad2 (hourTo24 h pm) ++ ':' :: pad2 m))
  unfold normSingleCore normSingleList
  rw [htrim, match24_none_long hlen]
  dsimp only
  rw [h12]

/-- Witness: C2 applied to the non-canonical spelling "07:30 pm"
(leading-zero hour, lowercase meridiem). -/
theorem normalizeSingleTime_12h_rule_witness :
    normalizeSingleTime "07:30 pm" = .ok "19:30" :=
  (normalizeSingleTime_12h_rule 7 30 true true true true [' ']
    (by decide) (by decide) (by decide) (by decide)).1

/-! ### normalizeTime lemmas -/

lemma splitOnHyphen_cons (c : Char) (rest : List Char) :
    splitOnHyphen (c :: rest) =
      (if c = '-' then [] :: splitOnHyphen rest
       else
        match splitOnHyphen rest with
        | [] => [[c]]
        | h :: t => (c :: h) :: t) :=
  rfl

lemma splitOnHyphen_no_hyphen {l : List Char} (h : ∀ c ∈ l, c ≠ '-') :
    splitOnHyphen l = [l] := by
  induction l with
  | nil => rfl
  | cons c t ih =>
    rw [splitOnHyphen_cons, if_neg (h c (List.mem_cons_self c t)),
      ih (fun x hx => h x (List.mem_cons_of_mem _ hx))]

lemma splitOnHyphen_append {l1 l2 : List Char} (h : ∀ c ∈ l1, c ≠ '-') :
    splitOnHyphen (l1 ++ '-' :: l2) = l1 :: splitOnHyphen l2 := by
  induction l1 with
  | nil =>
    show splitOnHyphen ('-' :: l2) = [] :: splitOnHyphen l2
    rw [splitOnHyphen_cons, if_pos rfl]
  | cons c t ih =>
    show splitOnHyphen (c :: (t ++ '-' :: l2)) = (c :: t) :: splitOnHyphen l2
    rw [splitOnHyphen_cons, if_neg (h c (List.mem_cons_self c t)),
      ih (fun x hx => h x (List.mem_cons_of_mem _ hx))]

lemma timeTokens_single {out : List Char} (hne : out ≠ [])
    (hprops : ∀ c ∈ out, isWsJs c = false ∧ c ≠ '-') :
    timeTokens (String.mk out) = [out] := by
  unfold timeTokens
  show ((splitOnHyphen out).map trimList).filter (fun p => !p.isEmpty) = [out]
  rw [splitOnHyphen_no_hyphen (fun c hc => (hprops c hc).2), List.map_cons, List.map_nil,
    trimList_eq_self (fun c hc => (hprops c hc).1),
    List.filter_cons_of_pos (by simpa using hne), List.filter_nil]

lemma timeTokens_range {o1 o2 : List Char} (h1ne : o1 ≠ []) (h2ne : o2 ≠ [])
    (hp1 : ∀ c ∈ o1, isWsJs c = false ∧ c ≠ '-')
    (hp2 : ∀ c ∈ o2, isWsJs c = false ∧ c ≠ '-') :
    timeTokens (String.mk o1 ++ "-" ++ String.mk o2) = [o1, o2] := by
  unfold timeTokens
  show (((splitOnHyphen ((o1 ++ ['-']) ++ o2)).map trimList).filter (fun p => !p.isEmpty)) = [o1, o2]
  rw [List.append_assoc]
  show (((splitOnHyphen (o1 ++ '-' :: o2)).map trimList).filter (fun p => !p.isEmpty)) = [o1, o2]
  rw [splitOnHyphen_append (fun c hc => (hp1 c hc).2),
    splitOnHyphen_no_hyphen (fun c hc => (hp2 c hc).2), List.map_cons, List.map_cons,
    List.map_nil, trimList_eq_self (fun c hc => (hp1 c hc).1),
    trimList_eq_self (fun c hc => (hp2 c hc).1),
    List.filter_cons_of_pos (by simpa using h1ne),
    List.filter_cons_of_pos (by simpa using h2ne), List.filter_nil]

/-- C3: every success of normalizeTime is in canonical format HH:mm or
HH:mm-HH:mm (24-hour, zero-padded), and the range example
"10:00 AM - 12:30 PM" normalizes to "10:00-12:30". -/
theorem normalizeTime_canonical (s r : String) (h : normalizeTime s = .ok r) :
    isCanonicalTime r = true ∧
      normalizeTime "10:00 AM - 12:30 PM" = .ok "10:00-12:30" := by
  refine ⟨?_, by decide⟩
  unfold normalizeTime at h
  cases ht : timeTokens s with
  | nil =>
    rw [ht] at h
    dsimp only at h
    exact Except.noConfusion h
  | cons p t1 =>
    cases t1 with
    | nil =>
      rw [ht] at h
      dsimp only at h
      unfold normSingleCore at h
      cases hn : normSingleList p with
      | none =>
        rw [hn] at h
        dsimp only at h
        exact Except.noConfusion h
      | some out =>
        rw [hn] at h
        dsimp only at h
        injection h with h
        subst h
        obtain ⟨n, m1, m2, hn23, hm1, hm2, rfl⟩ := normOut_shape hn
        exact (normOut_fixed hn23 hm1 hm2).2.1
    | cons q t2 =>
      cases t2 with
      | nil =>
        rw [ht] at h
        dsimp only at h
        cases hp : normSingleCore p with
        | error e =>
          rw [hp] at h
          dsimp only at h
          exact Except.noConfusion h
        | ok a =>
          rw [hp] at h
          dsimp only at h
          cases hq : normSingleCore q with
          | error e =>
            rw [hq] at h
            dsimp only at h
            exact Except.noConfusion h
          | ok b =>
            rw [hq] at h
            dsimp only at h
            injection h with h
            subst h
            unfold normSingleCore at hp hq
            cases hn1 : normSingleList p with
            | none =>
              rw [hn1] at hp
              dsimp only at hp
              exact Except.noConfusion hp
            | some o1 =>
              rw [hn1] at hp
              dsimp only at hp
              injection hp with hp
              cases hn2 : normSingleList q with
              | none =>
                rw [hn2] at hq
                dsimp only at hq
                exact Except.noConfusion hq
              | some o2 =>
                rw [hn2] at hq
                dsimp only at hq
                injection hq with hq
                subst hp
                subst hq
                obtain ⟨n1, m1, m2, hb1, hm1, hm2, rfl⟩ := normOut_shape hn1
                obtain ⟨n2, m3, m4, hb2, hm3, hm4, rfl⟩ := normOut_shape hn2
                show (isHHMM (pad2 n1 ++ ':' :: m1 :: m2 :: []) && decide ('-' = '-') &&
                  isHHMM (pad2 n2 ++ ':' :: m3 :: m4 :: [])) = true
                rw [(normOut_fixed hb1 hm1 hm2).2.1, (normOut_fixed hb2 hm3 hm4).2.1]
                rfl
      | cons r3 t3 =>
        rw [ht] at h
        dsimp only at h
        exact Except.noConfusion h

/-- Witness: C3 applied at the range example of the specification. -/
theorem normalizeTime_canonical_witness :
    isCanonicalTime "10:00-12:30" = true :=
  (normalizeTime_canonical "10:00 AM - 12:30 PM" "10:00-12:30" (by decide)).1

/-- C5: normalizeTime is idempotent on its accepted inputs: a value it
returns successfully renormalizes to itself. -/
theorem normalizeTime_idem (x r : String) (h : normalizeTime x = .ok r) :
    normalizeTime r = .ok r := by
  unfold normalizeTime at h
  cases ht : timeTokens x with
  | nil =>
    rw [ht] at h
    dsimp only at h
    exact Except.noConfusion h
  | cons p t1 =>
    cases t1 with
    | nil =>
      rw [ht] at h
      dsimp only at h
      unfold normSingleCore at h
      cases hn : normSingleList p with
      | none =>
        rw [hn] at h
        dsimp only at h
        exact Except.noConfusion h
      | some out =>
        rw [hn] at h
        dsimp only at h
        injection h with h
        subst h
        obtain ⟨hfix, hhh, hpr⟩ := normSingle_canonical hn
        have hne : out ≠ [] := by
          obtain ⟨n, m1, m2, _, _, _, rfl⟩ := normOut_shape hn
          simp [pad2]
        unfold normalizeTime
        rw [timeTokens_single hne hpr]
        dsimp only
        unfold normSingleCore
        rw [hfix]
    | cons q t2 =>
      cases t2 with
      | nil =>
        rw [ht] at h
        dsimp only at h
        cases hp : normSingleCore p with
        | error e =>
          rw [hp] at h
          dsimp only at h
          exact Except.noConfusion h
        | ok a =>
          rw [hp] at h
          dsimp only at h
          cases hq : normSingleCore q with
          | error e =>
            rw [hq] at h
            dsimp only at h
            exact Except.noConfusion h
          | ok b =>
            rw [hq] at h
            dsimp only at h
            injection h with h
            subst h
            unfold normSingleCore at hp hq
            cases hn1 : normSingleList p with
            | none =>
              rw [hn1] at hp
              dsimp only at hp
              exact Except.noConfusion hp
            | some o1 =>
              rw [hn1] at hp
              dsimp only at hp
              injection hp with hp
              cases hn2 : normSingleList q with
              | none =>
                rw [hn2] at hq
                dsimp only at hq
                exact Except.noConfusion hq
              | some o2 =>
                rw [hn2] at hq
                dsimp only at hq
                injection hq with hq
                subst hp
                subst hq
                obtain ⟨hfix1, hc1, hpr1⟩ := normSingle_canonical hn1
                obtain ⟨hfix2, hc2, hpr2⟩ := normSingle_canonical hn2
                have h1ne : o1 ≠ [] := by
                  obtain ⟨n, m1, m2, _, _, _, rfl⟩ := normOut_shape hn1
                  simp [pad2]
                have h2ne : o2 ≠ [] := by
                  obtain ⟨n, m1, m2, _, _, _, rfl⟩ := normOut_shape hn2
                  simp [pad2]
                unfold normalizeTime
                rw [timeTokens_range h1ne h2ne hpr1 hpr2]
                dsimp only
                unfold normSingleCore
                rw [hfix1, hfix2]
      | cons r3 t3 =>
        rw [ht] at h
        dsimp only at h
        exact Except.noConfusion h

/-- Witness: C5 applied to the concrete accepted input "2:30 PM". -/
theorem normalizeTime_idem_witness : normalizeTime "14:30" = .ok "14:30" :=
  normalizeTime_idem "2:30 PM" "14:30" (by decide)

lemma normSingleCore_none {p : List Char} (h : normSingleList p = none) :
    normSingleCore p = .error (invalidTimeMsg (String.mk p)) := by
  unfold normSingleCore
  rw [h]

lemma normSingleCore_some {p o : List Char} (h : normSingleList p = some o) :
    normSingleCore p = .ok (String.mk o) := by
  unfold normSingleCore
  rw [h]

lemma normalizeTime_eq_one {s : String} {p : List Char} (ht : timeTokens s = [p]) :
    normalizeTime s = normSingleCore p := by
  unfold normalizeTime
  rw [ht]

lemma normalizeTime_eq_two {s : String} {p q : List Char} (ht : timeTokens s = [p, q]) :
    normalizeTime s =
      (match normSingleCore p with
       | .error e => .error e
       | .ok a =>
         match normSingleCore q with
         | .error e => .error e
         | .ok b => .ok (a ++ "-" ++ b)) := by
  unfold normalizeTime
  rw [ht]

lemma normalizeTime_eq_other {s : String} (h1 : (timeTokens s).length ≠ 1)
    (h2 : (timeTokens s).length ≠ 2) :
    normalizeTime s = .error ("Invalid time range: \"" ++ s ++ "\".") := by
  unfold normalizeTime
  cases ht : timeTokens s with
  | nil => rfl
  | cons p t1 =>
    cases t1 with
    | nil =>
      rw [ht] at h1
      simp at h1
    | cons q t2 =>
      cases t2 with
      | nil =>
        rw [ht] at h2
        simp at h2
      | cons r3 t3 => rfl

/-- C4: normalizeTime fails exactly on malformed input and its errors
name the offending value: a token count other than 1 or 2 raises the
range error naming the whole input; an invalid token raises the format
error naming that token (the first invalid one); success happens
exactly when the 1 or 2 tokens are all valid; and "25:00" is rejected
with an error identifying "25:00". -/
theorem normalizeTime_error_spec (s : String) :
    ((timeTokens s).length ≠ 1 → (timeTokens s).length ≠ 2 →
      normalizeTime s = .error ("Invalid time range: \"" ++ s ++ "\".")) ∧
    (∀ p, timeTokens s = [p] → normSingleList p = none →
      normalizeTime s = .error (invalidTimeMsg (String.mk p))) ∧
    (∀ p q, timeTokens s = [p, q] → normSingleList p = none →
      normalizeTime s = .error (invalidTimeMsg (String.mk p))) ∧
    (∀ p q, timeTokens s = [p, q] → (∃ o, normSingleList p = some o) →
      normSingleList q = none →
      normalizeTime s = .error (invalidTimeMsg (String.mk q))) ∧
    ((∃ r, normalizeTime s = .ok r) ↔
      (((timeTokens s).length = 1 ∨ (timeTokens s).length = 2) ∧
        ∀ p ∈ timeTokens s, (normSingleList p).isSome = true)) ∧
    normalizeTime "25:00" =
      .error "Invalid time format: \"25:00\". Use HH:mm or h:mm AM/PM." := by
  refine ⟨normalizeTime_eq_other, ?_, ?_, ?_, ?_, by decide⟩
  · intro p hp hnone
    rw [normalizeTime_eq_one hp, normSingleCore_none hnone]
  · intro p q hpq hnone
    rw [normalizeTime_eq_two hpq, normSingleCore_none hnone]
  · intro p q hpq hsome hnone
    obtain ⟨o, ho⟩ := hsome
    rw [normalizeTime_eq_two hpq, normSingleCore_some ho]
    dsimp only
    rw [normSingleCore_none hnone]
  · constructor
    · rintro ⟨r, hr⟩
      cases ht : timeTokens s with
      | nil =>
        rw [normalizeTime_eq_other (by rw [ht]; simp) (by rw [ht]; simp)] at hr
        exact Except.noConfusion hr
      | cons p t1 =>
        cases t1 with
        | nil =>
          refine ⟨Or.inl rfl, ?_⟩
          intro p0 hp0
          rcases List.mem_singleton.mp hp0 with rfl
          rw [normalizeTime_eq_one ht] at hr
          cases hn : normSingleList p0 with
          | none =>
            rw [normSingleCore_none hn] at hr
            exact Except.noConfusion hr
          | some o => simp [hn]
        | cons q t2 =>
          cases t2 with
          | nil =>
            refine ⟨Or.inr rfl, ?_⟩
            intro p0 hp0
            rw [normalizeTime_eq_two ht] at hr
            cases hn1 : normSingleList p with
            | none =>
              rw [normSingleCore_none hn1] at hr
              dsimp only at hr
              exact Except.noConfusion hr
            | some o1 =>
              rw [normSingleCore_some hn1] at hr
              dsimp only at hr
              cases hn2 : normSingleList q with
              | none =>
                rw [normSingleCore_none hn2] at hr
                dsimp only at hr
                exact Except.noConfusion hr
              | some o2 =>
                rcases List.mem_cons.mp hp0 with rfl | hp0
                · simp [hn1]
                · rcases List.mem_singleton.mp hp0 with rfl
                  simp [hn2]
          | cons r3 t3 =>
            rw [normalizeTime_eq_other (by rw [ht]; simp) (by rw [ht]; simp)] at hr
            exact Except.noConfusion hr
    · rintro ⟨hlen, hall⟩
      cases ht : timeTokens s with
      | nil =>
        rw [ht] at hlen
        simp at hlen
      | cons p t1 =>
        cases t1 with
        | nil =>
          have hp := hall p (by rw [ht]; exact List.mem_cons_self _ _)
          obtain ⟨o, ho⟩ := Option.isSome_iff_exists.mp hp
          exact ⟨String.mk o, by rw [normalizeTime_eq_one ht, normSingleCore_some ho]⟩
        | cons q t2 =>
          cases t2 with
          | nil =>
            have hp := hall p (by rw [ht]; exact List.mem_cons_self _ _)
            have hq := hall q (by rw [ht]; simp)
            obtain ⟨o1, ho1⟩ := Option.isSome_iff_exists.mp hp
            obtain ⟨o2, ho2⟩ := Option.isSome_iff_exists.mp hq
            refine ⟨String.mk o1 ++ "-" ++ String.mk o2, ?_⟩
            rw [normalizeTime_eq_two ht, normSingleCore_some ho1]
            dsimp only
            rw [normSingleCore_some ho2]
          | cons r3 t3 =>
            rw [ht] at hlen
            rcases hlen with hlen | hlen <;> simp at hlen

/-- Witness: C4 applied at the specification example "25:00". -/
theorem normalizeTime_error_spec_witness :
    normalizeTime "25:00" =
      .error "Invalid time format: \"25:00\". Use HH:mm or h:mm AM/PM." :=
  (normalizeTime_error_spec "25:00").2.2.2.2.2

/-! ### Booking email validation -/

/-- Characters of the regex class [^\s@]. -/
def isAtomCh (c : Char) : Bool :=
  !isWsJs c && !decide (c = '@')

/-- Anchored match of [^\s@]+ against the whole remaining input. -/
def matchFinal (l : List Char) : Bool :=
  !l.isEmpty && l.all isAtomCh

/-- Tail of the domain: either continue the label [^\s@]+ or take the
literal dot and finish with [^\s@]+; the disjunction mirrors the
backtracking of the regex engine. -/
def domTail : List Char → Bool
  | [] => false
  | c :: rest => (decide (c = '.') && matchFinal rest) || (isAtomCh c && domTail rest)

/-- Anchored match of [^\s@]+\.[^\s@]+. -/
def matchDomain : List Char → Bool
  | [] => false
  | c :: rest => isAtomCh c && domTail rest

/-- Tail of the local part: either continue [^\s@]+ or take the literal
@ and match the domain. -/
def localTail : List Char → Bool
  | [] => false
  | c :: rest => (decide (c = '@') && matchDomain rest) || (isAtomCh c && localTail rest)

/-- EMAIL_REGEX of the Booking model: anchored match of
^[^\s@]+@[^\s@]+\.[^\s@]+$. -/
def emailRegexTest : List Char → Bool
  | [] => false
  | c :: rest => isAtomCh c && localTail rest

/-- The declared mongoose setters of the email path: trim, then
lowercase (ASCII model). -/
def applyEmailSetters (s : String) : List Char :=
  (trimList s.toList).map Char.toLower

/-- Booking email validation: the regex validator applied to the value
produced by the setters. -/
def bookingEmailValid (s : String) : Bool :=
  emailRegexTest (applyEmailSetters s)

/-- The shape stated by the specification sentence: non-ws-non-@ local,
"@", non-ws-non-@ label, ".", then non-whitespace characters. -/
def specEmailShape (l : List Char) : Prop :=
  ∃ x y z : List Char, l = x ++ '@' :: (y ++ '.' :: z) ∧ x ≠ [] ∧ y ≠ [] ∧ z ≠ [] ∧
    (∀ c ∈ x, isAtomCh c = true) ∧ (∀ c ∈ y, isAtomCh c = true) ∧ (∀ c ∈ z, isWsJs c = false)

/-- The amended shape: the final part also excludes "@". -/
def emailShapeAmended (l : List Char) : Prop :=
  ∃ x y z : List Char, l = x ++ '@' :: (y ++ '.' :: z) ∧ x ≠ [] ∧ y ≠ [] ∧ z ≠ [] ∧
    (∀ c ∈ x, isAtomCh c = true) ∧ (∀ c ∈ y, isAtomCh c = true) ∧ (∀ c ∈ z, isAtomCh c = true)

lemma matchFinal_iff (l : List Char) :
    matchFinal l = true ↔ (l ≠ [] ∧ ∀ c ∈ l, isAtomCh c = true) := by
  unfold matchFinal
  rw [Bool.and_eq_true, List.all_eq_true]
  constructor
  · rintro ⟨h1, h2⟩
    exact ⟨by simpa using h1, h2⟩
  · rintro ⟨h1, h2⟩
    exact ⟨by simpa using h1, h2⟩

lemma domTail_iff : ∀ l : List Char, domTail l = true ↔
    ∃ y z, l = y ++ '.' :: z ∧ (∀ c ∈ y, isAtomCh c = true) ∧ z ≠ [] ∧
      (∀ c ∈ z, isAtomCh c = true) := by
  intro l
  induction l with
  | nil =>
    constructor
    · intro h
      exact absurd h (by simp [domTail])
    · rintro ⟨y, z, h, _⟩
      simp at h
  | cons c rest ih =>
    constructor
    · intro h
      replace h : ((decide (c = '.') && matchFinal rest) || (isAtomCh c && domTail rest)) = true := h
      rw [Bool.or_eq_true, Bool.and_eq_true, Bool.and_eq_true] at h
      rcases h with ⟨hc, hf⟩ | ⟨ha, hd⟩
      · obtain ⟨hne, hall⟩ := (matchFinal_iff rest).mp hf
        exact ⟨[], rest, by simp [of_decide_eq_true hc], by simp, hne, hall⟩
      · obtain ⟨y', z, heq, hy, hz, hza⟩ := ih.mp hd
        refine ⟨c :: y', z, by rw [heq]; rfl, ?_, hz, hza⟩
        intro x hx
        rcases List.mem_cons.mp hx with rfl | hx
        · exact ha
        · exact hy x hx
    · rintro ⟨y, z, heq, hy, hz, hza⟩
      show ((decide (c = '.') && matchFinal rest) || (isAtomCh c && domTail rest)) = true
      rw [Bool.or_eq_true, Bool.and_eq_true, Bool.and_eq_true]
      cases y with
      | nil =>
        simp only [List.nil_append] at heq
        injection heq with h1 h2
        subst h1
        subst h2
        exact Or.inl ⟨by simp, (matchFinal_iff rest).mpr ⟨hz, hza⟩⟩
      | cons y0 y' =>
        simp only [List.cons_append] at heq
        injection heq with h1 h2
        subst h1
        exact Or.inr ⟨hy c (List.mem_cons_self _ _),
          ih.mpr ⟨y', z, h2, fun x hx => hy x (List.mem_cons_of_mem _ hx), hz, hza⟩⟩

lemma matchDomain_iff (l : List Char) : matchDomain l = true ↔
    ∃ y z, l = y ++ '.' :: z ∧ y ≠ [] ∧ (∀ c ∈ y, isAtomCh c = true) ∧ z ≠ [] ∧
      (∀ c ∈ z, isAtomCh c = true) := by
  cases l with
  | nil =>
    constructor
    · intro h
      exact absurd h (by simp [matchDomain])
    · rintro ⟨y, z, h, _⟩
      simp at h
  | cons c rest =>
    constructor
    · intro h
      replace h : (isAtomCh c && domTail rest) = true := h
      rw [Bool.and_eq_true] at h
      obtain ⟨ha, hd⟩ := h
      obtain ⟨y', z, heq, hy, hz, hza⟩ := (domTail_iff rest).mp hd
      refine ⟨c :: y', z, by rw [heq]; rfl, by simp, ?_, hz, hza⟩
      intro x hx
      rcases List.mem_cons.mp hx with rfl | hx
      · exact ha
      · exact hy x hx
    · rintro ⟨y, z, heq, hyne, hy, hz, hza⟩
      show (isAtomCh c && domTail rest) = true
      rw [Bool.and_eq_true]
      cases y with
      | nil => exact absurd rfl hyne
      | cons y0 y' =>
        simp only [List.cons_append] at heq
        injection heq with h1 h2
        subst h1
        exact ⟨hy c (List.mem_cons_self _ _),
          (domTail_iff rest).mpr ⟨y', z, h2, fun x hx => hy x (List.mem_cons_of_mem _ hx), hz, hza⟩⟩

lemma localTail_iff : ∀ l : List Char, localTail l = true ↔
    ∃ x r2, l = x ++ '@' :: r2 ∧ (∀ c ∈ x, isAtomCh c = true) ∧ matchDomain r2 = true := by
  intro l
  induction l with
  | nil =>
    constructor
    · intro h
      exact absurd h (by simp [localTail])
    · rintro ⟨x, r2, h, _⟩
      simp at h
  | cons c rest ih =>
    constructor
    · intro h
      replace h : ((decide (c = '@') && matchDomain rest) || (isAtomCh c && localTail rest)) = true := h
      rw [Bool.or_eq_true, Bool.and_eq_true, Bool.and_eq_true] at h
      rcases h with ⟨hc, hd⟩ | ⟨ha, hl⟩
      · exact ⟨[], rest, by simp [of_decide_eq_true hc], by simp, hd⟩
      · obtain ⟨x', r2, heq, hx, hd⟩ := ih.mp hl
        refine ⟨c :: x', r2, by rw [heq]; rfl, ?_, hd⟩
        intro w hw
        rcases List.mem_cons.mp hw with rfl | hw
        · exact ha
        · exact hx w hw
    · rintro ⟨x, r2, heq, hx, hd⟩
      show ((decide (c = '@') && matchDomain rest) || (isAtomCh c && localTail rest)) = true
      rw [Bool.or_eq_true, Bool.and_eq_true, Bool.and_eq_true]
      cases x with
      | nil =>
        simp only [List.nil_append] at heq
        injection heq with h1 h2
        subst h1
        subst h2
        exact Or.inl ⟨by simp, hd⟩
      | cons x0 x' =>
        simp only [List.cons_append] at heq
        injection heq with h1 h2
        subst h1
        exact Or.inr ⟨hx c (List.mem_cons_self _ _),
          ih.mpr ⟨x', r2, h2, fun w hw => hx w (List.mem_cons_of_mem _ hw), hd⟩⟩

lemma emailRegexTest_iff (l : List Char) : emailRegexTest l = true ↔ emailShapeAmended l := by
  constructor
  · intro h
    cases l with
    | nil => exact absurd h (by simp [emailRegexTest])
    | cons c rest =>
      replace h : (isAtomCh c && localTail rest) = true := h
      rw [Bool.and_eq_true] at h
      obtain ⟨ha, hl⟩ := h
      obtain ⟨x', r2, heq, hx, hd⟩ := (localTail_iff rest).mp hl
      obtain ⟨y, z, heq2, hyne, hy, hzne, hz⟩ := (matchDomain_iff r2).mp hd
      refine ⟨c :: x', y, z, by rw [heq, heq2]; rfl, by simp, hyne, hzne, ?_, hy, hz⟩
      intro w hw
      rcases List.mem_cons.mp hw with rfl | hw
      · exact ha
      · exact hx w hw
  · rintro ⟨x, y, z, heq, hxne, hyne, hzne, hx, hy, hz⟩
    cases x with
    | nil => exact absurd rfl hxne
    | cons x0 x' =>
      subst heq
      show (isAtomCh x0 && localTail (x' ++ '@' :: (y ++ '.' :: z))) = true
      rw [Bool.and_eq_true]
      refine ⟨hx x0 (List.mem_cons_self _ _), (localTail_iff _).mpr
        ⟨x', y ++ '.' :: z, rfl, fun w hw => hx w (List.mem_cons_of_mem _ hw),
          (matchDomain_iff _).mpr ⟨y, z, rfl, hyne, hy, hzne, hz⟩⟩⟩

/-- C7 (amended): booking email validation accepts exactly the strings
whose trimmed lowercased form splits as nonempty non-ws-non-@ local
part, "@", nonempty non-ws-non-@ label, ".", nonempty non-ws-non-@
final part. -/
theorem bookingEmail_amended (s : String) :
    bookingEmailValid s = true ↔ emailShapeAmended (applyEmailSetters s) :=
  emailRegexTest_iff (applyEmailSetters s)

/-- C7 counterexample: "a@b.c@d" satisfies the shape stated by the
specification (the part after the last required dot need only be
non-whitespace), yet the code rejects it: the regex excludes "@" from
the final part as well. -/
theorem bookingEmail_claim_counterexample :
    specEmailShape (applyEmailSetters "a@b.c@d") ∧ bookingEmailValid "a@b.c@d" = false := by
  constructor
  · exact ⟨['a'], ['b'], ['c', '@', 'd'], by decide, by decide, by decide, by decide,
      by decide, by decide, by decide⟩
  · decide

/-! ### Booking model -/

instance {A B : Type} [DecidableEq A] [DecidableEq B] : DecidableEq (Except A B) := fun a b =>
  match a, b with
  | .ok x, .ok y =>
    if h : x = y then .isTrue (by rw [h]) else .isFalse (fun hh => h (Except.ok.inj hh))
  | .error x, .error y =>
    if h : x = y then .isTrue (by rw [h]) else .isFalse (fun hh => h (Except.error.inj hh))
  | .ok _, .error _ => .isFalse (fun hh => Except.noConfusion hh)
  | .error _, .ok _ => .isFalse (fun hh => Except.noConfusion hh)

/-- A Booking document as the pre-save hook sees it: the event
reference, the email, and the mongoose dirty flag for eventId (true on
initial creation). -/
structure BookingDoc where
  eventId : String
  email : String
  eventIdModified : Bool
deriving DecidableEq

/-- The declared mongoose setters of a Booking: email is trimmed and
lowercased. -/
def applyBookingSetters (d : BookingDoc) : BookingDoc :=
  { d with email := String.mk (applyEmailSetters d.email) }

/-- Schema validation of a Booking: the declared email validator. -/
def validateBooking (d : BookingDoc) : Except String Unit :=
  if emailRegexTest d.email.toList then .ok () else .error "Invalid email address."

/-- BookingSchema.pre("save"): return early when eventId is not
modified, otherwise check existence in the Event collection and reject
a dangling reference. -/
def bookingPreSave (events : List String) (d : BookingDoc) : Except String Unit :=
  if !d.eventIdModified then .ok ()
  else if events.contains d.eventId then .ok ()
  else .error "Referenced event does not exist."

/-- A Booking save against an Event collection and a Booking store:
setters, validation, the pre-save hook, then the insert. -/
def saveBooking (events : List String) (store : List BookingDoc) (d : BookingDoc) :
    Except String (List BookingDoc) :=
  match validateBooking (applyBookingSetters d) with
  | .error e => .error e
  | .ok _ =>
    match bookingPreSave events (applyBookingSetters d) with
    | .error e => .error e
    | .ok _ => .ok (store ++ [applyBookingSetters d])

/-- C8: the Booking referential check runs exactly when eventId is
modified: with eventId modified and absent from the Event collection
the save fails with the referential error and no document is inserted;
with the referenced event present it succeeds; with eventId unmodified
the check is skipped even for a dangling reference; and a successful
save of a modified reference proves the event existed. -/
theorem bookingPreSave_referential (events : List String) (store : List BookingDoc)
    (d : BookingDoc) (hv : validateBooking (applyBookingSetters d) = .ok ()) :
    (d.eventIdModified = true → events.contains d.eventId = false →
      saveBooking events store d = .error "Referenced event does not exist.") ∧
    (d.eventIdModified = true → events.contains d.eventId = true →
      saveBooking events store d = .ok (store ++ [applyBookingSetters d])) ∧
    (d.eventIdModified = false →
      saveBooking events store d = .ok (store ++ [applyBookingSetters d])) ∧
    (∀ bs, saveBooking events store d = .ok bs → d.eventIdModified = true →
      events.contains d.eventId = true ∧ bs = store ++ [applyBookingSetters d]) := by
  have he : (applyBookingSetters d).eventId = d.eventId := rfl
  have hm : (applyBookingSetters d).eventIdModified = d.eventIdModified := rfl
  refine ⟨?_, ?_, ?_, ?_⟩
  · intro h1 h2
    unfold saveBooking
    rw [hv]
    dsimp only
    unfold bookingPreSave
    rw [hm, he, h1, h2]
    rfl
  · intro h1 h2
    unfold saveBooking
    rw [hv]
    dsimp only
    unfold bookingPreSave
    rw [hm, he, h1, h2]
    rfl
  · intro h1
    unfold saveBooking
    rw [hv]
    dsimp only
    unfold bookingPreSave
    rw [hm, h1]
    rfl
  · intro bs hok h1
    unfold saveBooking at hok
    rw [hv] at hok
    dsimp only at hok
    unfold bookingPreSave at hok
    rw [hm, he, h1] at hok
    by_cases hc : events.contains d.eventId = true
    · rw [hc] at hok
      simp at hok
      exact ⟨hc, hok.symm⟩
    · rw [Bool.not_eq_true] at hc
      rw [hc] at hok
      simp at hok

/-- Witness: C8 applied to a dangling reference and to an existing
one. -/
theorem bookingPreSave_referential_witness :
    saveBooking ["e1"] [] ⟨"e2", "a@b.c", true⟩ =
      .error "Referenced event does not exist." :=
  (bookingPreSave_referential ["e1"] [] ⟨"e2", "a@b.c", true⟩ (by decide)).1 rfl (by decide)

/-! ### Event model -/

/-- An Event document as the schema and pre-save hook see it, with the
mongoose dirty flag for title (true on initial creation). -/
structure EventDoc where
  title : String
  slug : String
  description : String
  overview : String
  image : String
  venue : String
  location : String
  date : String
  time : String
  mode : String
  audience : String
  agenda : List String
  organizer : String
  tags : List String
  titleModified : Bool
deriving DecidableEq

/-- The string fields declared with the nonEmptyTrimmedString options
(trim, required, minlength 1) in EventSchema; slug is declared with
only unique and index. -/
def eventSchemaRequiredStringFields : List String :=
  ["title", "description", "overview", "image", "venue", "location", "date",
   "time", "mode", "audience", "organizer"]

/-- The required string fields paired with their values in a document,
in schema order. -/
def eventRequiredPairs (d : EventDoc) : List (String × String) :=
  [("title", d.title), ("description", d.description), ("overview", d.overview),
   ("image", d.image), ("venue", d.venue), ("location", d.location),
   ("date", d.date), ("time", d.time), ("mode", d.mode),
   ("audience", d.audience), ("organizer", d.organizer)]

/-- The declared mongoose setters of an Event: the trim option of every
nonEmptyTrimmedString field and of the agenda and tags items; slug has
no setter. -/
def applyEventSetters (d : EventDoc) : EventDoc :=
  { d with
    title := trimStr d.title
    description := trimStr d.description
    overview := trimStr d.overview
    image := trimStr d.image
    venue := trimStr d.venue
    location := trimStr d.location
    date := trimStr d.date
    time := trimStr d.time
    mode := trimStr d.mode
    audience := trimStr d.audience
    agenda := d.agenda.map trimStr
    organizer := trimStr d.organizer
    tags := d.tags.map trimStr }

/-- Schema validation of an Event: required and minlength 1 reject an
empty string in every declared field, agenda and tags must be non-empty
lists of non-empty items; slug carries no validator. -/
def validateEvent (d : EventDoc) : Except String Unit :=
  match (eventRequiredPairs d).find? (fun p => p.2 == "") with
  | some p => .error ("Path " ++ p.1 ++ " is required.")
  | none =>
    if d.agenda.isEmpty then .error "Agenda must have at least one item."
    else if d.agenda.any (fun a => a == "") then .error "Agenda item is required."
    else if d.tags.isEmpty then .error "Tags must have at least one item."
    else if d.tags.any (fun a => a == "") then .error "Tag is required."
    else .ok ()

/-- The field names the pre-save emptiness guard iterates, in source
order; slug is not among them. -/
def preSaveCheckedFields : List String :=
  ["title", "description", "overview", "image", "venue", "location", "date",
   "time", "mode", "audience", "organizer"]

/-- The emptiness loop of the pre-save hook over (field, value) pairs:
the first whitespace-only value aborts with an error naming the
field. -/
def checkFieldsNonEmpty : List (String × String) → Except String Unit
  | [] => .ok ()
  | (f, v) :: rest =>
    if trimStr v = "" then .error ("Field \"" ++ f ++ "\" cannot be empty.")
    else checkFieldsNonEmpty rest

/-- The agenda and tags loops of the pre-save hook. -/
def checkItemsNonEmpty (items : List String) (msg : String) : Except String Unit :=
  match items.find? (fun i => trimStr i == "") with
  | some _ => .error msg
  | none => .ok ()

/-- Final stage of the pre-save hook: the emptiness guards, then
commit. -/
def eventHookTail (d3 : EventDoc) : Except String EventDoc :=
  match checkFieldsNonEmpty (eventRequiredPairs d3) with
  | .error e => .error e
  | .ok _ =>
    match checkItemsNonEmpty d3.agenda "Agenda items cannot be empty." with
    | .error e => .error e
    | .ok _ =>
      match checkItemsNonEmpty d3.tags "Tags cannot be empty." with
      | .error e => .error e
      | .ok _ => .ok d3

/-- Middle stage of the pre-save hook: time normalization. -/
def eventHookDated (d2 : EventDoc) : Except String EventDoc :=
  match normalizeTime d2.time with
  | .error e => .error e
  | .ok nt => eventHookTail { d2 with time := nt }

/-- Date stage of the pre-save hook, with the general date parser and
the ISO-8601 renderer (JavaScript Date builtins, collaborator-owned)
passed as parameters. -/
def eventHookSlugged (dateParse : String → Option Int) (toIso : Int → String)
    (d1 : EventDoc) : Except String EventDoc :=
  match dateParse d1.date with
  | none => .error ("Invalid date: \"" ++ d1.date ++ "\".")
  | some t => eventHookDated { d1 with date := toIso t }

/-- EventSchema.pre("save"): regenerate the slug when the title is
modified, normalize the date, normalize the time, then run the
emptiness guards; any failure aborts the save. -/
def eventPreSave (dateParse : String → Option Int) (toIso : Int → String)
    (d0 : EventDoc) : Except String EventDoc :=
  eventHookSlugged dateParse toIso
    (if d0.titleModified then { d0 with slug := slugifyTitle d0.title } else d0)

/-- A full Event save: setters, schema validation, then the pre-save
hook; the returned document is the one committed. -/
def saveEvent (dateParse : String → Option Int) (toIso : Int → String)
    (d : EventDoc) : Except String EventDoc :=
  match validateEvent (applyEventSetters d) with
  | .error e => .error e
  | .ok _ => eventPreSave dateParse toIso (applyEventSetters d)

lemma eventHookTail_ok {d3 d' : EventDoc} (h : eventHookTail d3 = .ok d') : d' = d3 := by
  unfold eventHookTail at h
  cases h1 : checkFieldsNonEmpty (eventRequiredPairs d3) with
  | error e =>
    rw [h1] at h
    exact absurd h (by simp)
  | ok u =>
    rw [h1] at h
    dsimp only at h
    cases h2 : checkItemsNonEmpty d3.agenda "Agenda items cannot be empty." with
    | error e =>
      rw [h2] at h
      exact absurd h (by simp)
    | ok u2 =>
      rw [h2] at h
      dsimp only at h
      cases h3 : checkItemsNonEmpty d3.tags "Tags cannot be empty." with
      | error e =>
        rw [h3] at h
        exact absurd h (by simp)
      | ok u3 =>
        rw [h3] at h
        dsimp only at h
        exact (Except.ok.inj h).symm

lemma eventHookDated_ok {d2 d' : EventDoc} (h : eventHookDated d2 = .ok d') :
    d'.date = d2.date := by
  unfold eventHookDated at h
  cases hnt : normalizeTime d2.time with
  | error e =>
    rw [hnt] at h
    exact absurd h (by simp)
  | ok nt =>
    rw [hnt] at h
    dsimp only at h
    rw [eventHookTail_ok h]

/-- C6: date normalization in the Event pre-save hook fails exactly on
unparseable input: when the date parser yields nothing the hook aborts
with the validation error naming the offending value, and every
successful hook run has replaced the date field by the ISO rendering of
the parsed value before commit. -/
theorem eventPreSave_date_spec (dateParse : String → Option Int) (toIso : Int → String)
    (d : EventDoc) :
    (dateParse d.date = none →
      eventPreSave dateParse toIso d = .error ("Invalid date: \"" ++ d.date ++ "\".")) ∧
    (∀ d', eventPreSave dateParse toIso d = .ok d' →
      ∃ t, dateParse d.date = some t ∧ d'.date = toIso t) := by
  have hd1 : (if d.titleModified then { d with slug := slugifyTitle d.title } else d).date
      = d.date := by
    split <;> rfl
  constructor
  · intro h
    unfold eventPreSave eventHookSlugged
    rw [hd1, h]
  · intro d' hok
    unfold eventPreSave eventHookSlugged at hok
    rw [hd1] at hok
    cases hp : dateParse d.date with
    | none =>
      rw [hp] at hok
      exact absurd hok (by simp)
    | some t =>
      rw [hp] at hok
      dsimp only at hok
      exact ⟨t, rfl, eventHookDated_ok hok⟩

/-- Witness: C6 applied to a parser that rejects the given date. -/
theorem eventPreSave_date_spec_witness :
    eventPreSave (fun _ => none) (fun _ => "") 
        ⟨"t", "", "d", "o", "i", "v", "l", "not-a-date", "10:00", "m", "a", ["x"], "org", ["t"], true⟩ =
      .error "Invalid date: \"not-a-date\"." :=
  (eventPreSave_date_spec (fun _ => none) (fun _ => "")
    ⟨"t", "", "d", "o", "i", "v", "l", "not-a-date", "10:00", "m", "a", ["x"], "org", ["t"], true⟩).1 rfl

lemma checkFieldsNonEmpty_ok : ∀ {ps : List (String × String)},
    (∀ p ∈ ps, trimStr p.2 ≠ "") → checkFieldsNonEmpty ps = .ok () := by
  intro ps
  induction ps with
  | nil => intro _; rfl
  | cons p rest ih =>
    intro h
    obtain ⟨f, v⟩ := p
    unfold checkFieldsNonEmpty
    rw [if_neg (h (f, v) (List.mem_cons_self _ _))]
    exact ih (fun q hq => h q (List.mem_cons_of_mem _ hq))

/-- An Event document whose title has no alphanumeric characters and
whose other fields are all valid; slug is at its default empty value
and title counts as modified, as on initial creation. -/
def bangDoc : EventDoc :=
  ⟨"!!!", "", "d", "o", "i", "v", "l", "2025-01-01", "10:00", "m", "a", ["x"], "org",
    ["t"], true⟩

/-- C10: slug is exempt from the non-emptiness enforcement: it is not a
required schema field, it is not among the fields of the pre-save
emptiness loop, and saving an Event titled "!!!" (whose slug derivation
is empty) with all other fields valid succeeds and persists slug as the
empty string. -/
theorem slug_exempt_from_required (dateParse : String → Option Int) (toIso : Int → String)
    (t : Int) (hp : dateParse "2025-01-01" = some t) (hiso : trimStr (toIso t) ≠ "") :
    "slug" ∉ eventSchemaRequiredStringFields ∧
    "slug" ∉ preSaveCheckedFields ∧
    (∀ dd : EventDoc, "slug" ∉ (eventRequiredPairs dd).map Prod.fst) ∧
    slugifyTitle bangDoc.title = "" ∧
    ∃ d', saveEvent dateParse toIso bangDoc = .ok d' ∧ d'.slug = "" := by
  refine ⟨by decide, by decide, ?_, by decide, ?_⟩
  · intro dd
    simp [eventRequiredPairs]
  · have hset : applyEventSetters bangDoc = bangDoc := by decide
    have hval : validateEvent bangDoc = .ok () := by decide
    have hd1 : (if bangDoc.titleModified then { bangDoc with slug := slugifyTitle bangDoc.title }
        else bangDoc) = bangDoc := by decide
    unfold saveEvent
    rw [hset, hval]
    dsimp only
    unfold eventPreSave
    rw [hd1]
    unfold eventHookSlugged
    have hbd : bangDoc.date = "2025-01-01" := rfl
    rw [hbd, hp]
    dsimp only
    unfold eventHookDated
    have hbt : ({ bangDoc with date := toIso t } : EventDoc).time = "10:00" := rfl
    rw [hbt, show normalizeTime "10:00" = .ok "10:00" from by decide]
    dsimp only
    unfold eventHookTail
    have hfields : checkFieldsNonEmpty (eventRequiredPairs
        ({ { bangDoc with date := toIso t } with time := "10:00" } : EventDoc)) = .ok () := by
      apply checkFieldsNonEmpty_ok
      intro p hpmem
      simp only [eventRequiredPairs, List.mem_cons, List.not_mem_nil, or_false] at hpmem
      rcases hpmem with rfl | rfl | rfl | rfl | rfl | rfl | rfl | rfl | rfl | rfl | rfl <;>
        first
          | exact hiso
          | (dsimp only [bangDoc]; decide)
    rw [hfields]
    dsimp only
    have hag : checkItemsNonEmpty
        (({ { bangDoc with date := toIso t } with time := "10:00" } : EventDoc)).agenda
        "Agenda items cannot be empty." = .ok () := by
      dsimp only [bangDoc]
      decide
    rw [hag]
    dsimp only
    have htg : checkItemsNonEmpty
        (({ { bangDoc with date := toIso t } with time := "10:00" } : EventDoc)).tags
        "Tags cannot be empty." = .ok () := by
      dsimp only [bangDoc]
      decide
    rw [htg]
    dsimp only
    exact ⟨_, rfl, rfl⟩

/-- Witness: C10 applied with a concrete parser and renderer. -/
theorem slug_exempt_from_required_witness :
    ∃ d', saveEvent (fun _ => some 0) (fun _ => "1995-12-17T03:24:00.000Z") bangDoc = .ok d' ∧
      d'.slug = "" :=
  (slug_exempt_from_required (fun _ => some 0) (fun _ => "1995-12-17T03:24:00.000Z") 0
    rfl (by decide)).2.2.2.2

/-! ### Connection manager -/

/-- The module-level mongoose cache plus bookkeeping for the proofs:
the resolved handle, whether a connection promise is in flight, how
many physical connection attempts were ever issued, how many callers
await the in-flight promise, and the handles returned to completed
callers. -/
structure DbState where
  conn : Option Nat
  promiseActive : Bool
  attempts : Nat
  waiting : Nat
  results : List Nat
deriving DecidableEq

/-- Events of the single-threaded async execution: a call to
connectToDatabase runs its synchronous prefix atomically (there is no
await between the cache checks and the promise assignment), and a
resolution of the in-flight promise delivers the handle to every
awaiting caller. -/
inductive DbEvent where
  | call
  | resolve (h : Nat)

/-- The cache as the module initializes it: no handle, no in-flight
promise. -/
def initDbState : DbState :=
  ⟨none, false, 0, 0, []⟩

/-- One atomic step of connectToDatabase or of the promise resolution:
a call returns the cached handle immediately when present, otherwise
joins the in-flight promise, creating it (one physical attempt) only
when none exists; a resolution fills the cache and answers every
waiting caller with the same handle.  A promise resolves only once, so
a second resolution of the same state is a no-op. -/
def dbStep (s : DbState) (e : DbEvent) : DbState :=
  match e with
  | .call =>
    match s.conn with
    | some h => { s with results := s.results ++ [h] }
    | none =>
      if s.promiseActive then { s with waiting := s.waiting + 1 }
      else { s with promiseActive := true, attempts := s.attempts + 1, waiting := s.waiting + 1 }
  | .resolve h =>
    if s.promiseActive ∧ s.conn = none then
      { s with conn := some h, results := s.results ++ List.replicate s.waiting h, waiting := 0 }
    else s

/-- The state after an arbitrary interleaving of calls and the
resolution. -/
def dbRun (events : List DbEvent) : DbState :=
  List.foldl dbStep initDbState events

/-- Invariant of the connection cache. -/
def DbInv (s : DbState) : Prop :=
  s.attempts ≤ 1 ∧
  (s.promiseActive = false → s.attempts = 0) ∧
  (∀ h, s.conn = some h → s.promiseActive = true) ∧
  (∀ h, h ∈ s.results → s.conn = some h)

lemma dbStep_inv {s : DbState} (hs : DbInv s) (e : DbEvent) : DbInv (dbStep s e) := by
  obtain ⟨h1, h2, h3, h4⟩ := hs
  cases e with
  | call =>
    cases hc : s.conn with
    | some h =>
      have hstep : dbStep s .call = { s with results := s.results ++ [h] } := by
        simp only [dbStep, hc]
      rw [hstep]
      unfold DbInv
      dsimp only
      refine ⟨h1, h2, h3, ?_⟩
      intro h' hh
      rcases List.mem_append.mp hh with hh | hh
      · exact h4 h' hh
      · rcases List.mem_singleton.mp hh with rfl
        exact hc
    | none =>
      by_cases hp : s.promiseActive = true
      · have hstep : dbStep s .call = { s with waiting := s.waiting + 1 } := by
          simp only [dbStep, hc, hp, if_true]
        rw [hstep]
        unfold DbInv
        dsimp only
        exact ⟨h1, h2, h3, h4⟩
      · rw [Bool.not_eq_true] at hp
        have hstep : dbStep s .call = { s with promiseActive := true, attempts := s.attempts + 1, waiting := s.waiting + 1 } := by
          simp only [dbStep, hc, hp, Bool.false_eq_true, if_false]
        rw [hstep]
        unfold DbInv
        dsimp only
        have ha0 : s.attempts = 0 := h2 hp
        refine ⟨by omega, ?_, fun h' hh => rfl, ?_⟩
        · intro hf
          exact absurd hf (by simp)
        · intro h' hh
          exact h4 h' hh
  | resolve h =>
    by_cases hcond : s.promiseActive = true ∧ s.conn = none
    · have hres : s.results = [] := by
        cases hr : s.results with
        | nil => rfl
        | cons x xs =>
          have hx := h4 x (by rw [hr]; exact List.mem_cons_self _ _)
          rw [hcond.2] at hx
          exact absurd hx (by simp)
      have hstep : dbStep s (.resolve h) = { s with conn := some h, results := s.results ++ List.replicate s.waiting h, waiting := 0 } := by
        simp only [dbStep, if_pos hcond]
      rw [hstep]
      unfold DbInv
      dsimp only
      refine ⟨h1, h2, fun h' _ => hcond.1, ?_⟩
      intro h' hh
      rw [hres, List.nil_append] at hh
      rcases List.mem_replicate.mp hh with ⟨_, rfl⟩
      rfl
    · have hstep : dbStep s (.resolve h) = s := by
        simp only [dbStep, if_neg hcond]
      rw [hstep]
      exact ⟨h1, h2, h3, h4⟩

lemma dbFold_inv : ∀ (events : List DbEvent) (s : DbState), DbInv s →
    DbInv (List.foldl dbStep s events) := by
  intro events
  induction events with
  | nil => intro s hs; exact hs
  | cons e rest ih =>
    intro s hs
    exact ih _ (dbStep_inv hs e)

lemma dbRun_inv (events : List DbEvent) : DbInv (dbRun events) := by
  have hinit : DbInv initDbState := by
    refine ⟨by decide, fun _ => rfl, ?_, ?_⟩
    · intro h hh
      exact absurd hh (by simp [initDbState])
    · intro h hh
      exact absurd hh (by simp [initDbState])
  exact dbFold_inv events initDbState hinit

/-- C9: for every interleaving of calls to connectToDatabase and of the
promise resolution within one process, at most one physical connection
attempt is ever issued, all completed callers receive the identical
handle (the cached one), and once the handle is cached a further call
returns it immediately without changing the connection state. -/
theorem connectToDatabase_single_attempt (events : List DbEvent) :
    (dbRun events).attempts ≤ 1 ∧
    (∀ h1 ∈ (dbRun events).results, ∀ h2 ∈ (dbRun events).results, h1 = h2) ∧
    (∀ h ∈ (dbRun events).results, (dbRun events).conn = some h) ∧
    (∀ s : DbState, ∀ h : Nat, s.conn = some h →
      dbStep s .call = { s with results := s.results ++ [h] }) := by
  obtain ⟨h1, h2, h3, h4⟩ := dbRun_inv events
  refine ⟨h1, ?_, h4, ?_⟩
  · intro x hx y hy
    have hcx := h4 x hx
    have hcy := h4 y hy
    rw [hcx] at hcy
    exact Option.some.inj hcy
  · intro s h hc
    simp only [dbStep, hc]

/-- Witness: C9 applied to a trace with two concurrent first calls, the
resolution, and one later call. -/
theorem connectToDatabase_single_attempt_witness :
    (dbRun [.call, .call, .resolve 7, .call]).attempts ≤ 1 :=
  (connectToDatabase_single_attempt [.call, .call, .resolve 7, .call]).1
